import Mathlib

set_option maxRecDepth 100000
set_option maxHeartbeats 4000000

/-!
# Verification of the error-correcting-codes repository

Shallow embedding of `src/error_correctors.py` (the `ReedSolomon`, `Viterbi`
and `ConcatenatedViterbiRS` wrapper classes) together with models of the
collaborating modules that the repository imports but whose source is not in
`src/` (the `unireedsolomon` Reed-Solomon coder, the convolutional
encoder / Viterbi trellis decoder from the `viterbi` module, and the
`bitstring_utils` bitstring/byte conversions).  Those missing parts are
modelled from the specification (sections 4.1 - 4.4), as flagged in their
doc comments.

Conventions:
* a Python bitstring (a `str` of the characters `'0'`/`'1'`) is a
  `List Bool` (`'1' = true`);
* an 8-bit symbol (one ASCII character handed to the Reed-Solomon coder) is
  an element of the Galois field `GF` (a natural number below 256);
* Python exceptions are an `Except` value; code that cannot raise is a total
  function.
-/

/-! ## Galois field GF(2^8)

Modelled from the spec (section 4.1): arithmetic over GF(2^8) built from a
fixed primitive polynomial (here x^8 + x^4 + x^3 + x^2 + 1, i.e. 0x11D,
with the primitive element alpha = 2), supporting add, multiply, divide,
inverse and power.  Addition is bitwise xor; multiplication is the
shift-and-reduce (Russian peasant) loop equivalent to the log/antilog table
lookup mentioned by the spec.  The log/antilog tables appear below as
`gfExpTable`/`gfLogTable` and are used to establish the field laws.
-/

/-- Multiply by the primitive element `x` in GF(2^8): shift left one bit
and, if the result overflows bit 7, reduce by the primitive polynomial
0x11D. -/
def xtimeN (a : Nat) : Nat :=
  if a < 128 then 2 * a else (2 * a) ^^^ 285

/-- Fuelled core of the GF(2^8) multiply: examine the low bit of `b`,
conditionally xor in `a`, then square-and-shift. -/
def gmulAuxN : Nat → Nat → Nat → Nat
  | 0, _, _ => 0
  | fuel + 1, a, b =>
      (if b % 2 = 1 then a else 0) ^^^ (gmulAuxN fuel (xtimeN a) (b / 2))

/-- GF(2^8) multiplication on natural-number representatives (< 256). -/
def gmulN (a b : Nat) : Nat := gmulAuxN 8 a b

/-- Antilog table of GF(2^8) for the primitive polynomial 0x11D and the
generator alpha = 2: entry `i` is `alpha ^ i`. -/
def gfExpTable : List Nat :=
  [1, 2, 4, 8, 16, 32, 64, 128, 29, 58, 116, 232, 205, 135, 19, 38, 76, 152,
   45, 90, 180, 117, 234, 201, 143, 3, 6, 12, 24, 48, 96, 192, 157, 39, 78,
   156, 37, 74, 148, 53, 106, 212, 181, 119, 238, 193, 159, 35, 70, 140, 5,
   10, 20, 40, 80, 160, 93, 186, 105, 210, 185, 111, 222, 161, 95, 190, 97,
   194, 153, 47, 94, 188, 101, 202, 137, 15, 30, 60, 120, 240, 253, 231, 211,
   187, 107, 214, 177, 127, 254, 225, 223, 163, 91, 182, 113, 226, 217, 175,
   67, 134, 17, 34, 68, 136, 13, 26, 52, 104, 208, 189, 103, 206, 129, 31,
   62, 124, 248, 237, 199, 147, 59, 118, 236, 197, 151, 51, 102, 204, 133,
   23, 46, 92, 184, 109, 218, 169, 79, 158, 33, 66, 132, 21, 42, 84, 168, 77,
   154, 41, 82, 164, 85, 170, 73, 146, 57, 114, 228, 213, 183, 115, 230, 209,
   191, 99, 198, 145, 63, 126, 252, 229, 215, 179, 123, 246, 241, 255, 227,
   219, 171, 75, 150, 49, 98, 196, 149, 55, 110, 220, 165, 87, 174, 65, 130,
   25, 50, 100, 200, 141, 7, 14, 28, 56, 112, 224, 221, 167, 83, 166, 81,
   162, 89, 178, 121, 242, 249, 239, 195, 155, 43, 86, 172, 69, 138, 9, 18,
   36, 72, 144, 61, 122, 244, 245, 247, 243, 251, 235, 203, 139, 11, 22, 44,
   88, 176, 125, 250, 233, 207, 131, 27, 54, 108, 216, 173, 71, 142]

/-- Log table of GF(2^8) (inverse of `gfExpTable` on nonzero arguments;
entry 0 is unused). -/
def gfLogTable : List Nat :=
  [0, 0, 1, 25, 2, 50, 26, 198, 3, 223, 51, 238, 27, 104, 199, 75, 4, 100,
   224, 14, 52, 141, 239, 129, 28, 193, 105, 248, 200, 8, 76, 113, 5, 138,
   101, 47, 225, 36, 15, 33, 53, 147, 142, 218, 240, 18, 130, 69, 29, 181,
   194, 125, 106, 39, 249, 185, 201, 154, 9, 120, 77, 228, 114, 166, 6, 191,
   139, 98, 102, 221, 48, 253, 226, 152, 37, 179, 16, 145, 34, 136, 54, 208,
   148, 206, 143, 150, 219, 189, 241, 210, 19, 92, 131, 56, 70, 64, 30, 66,
   182, 163, 195, 72, 126, 110, 107, 58, 40, 84, 250, 133, 186, 61, 202, 94,
   155, 159, 10, 21, 121, 43, 78, 212, 229, 172, 115, 243, 167, 87, 7, 112,
   192, 247, 140, 128, 99, 13, 103, 74, 222, 237, 49, 197, 254, 24, 227,
   165, 153, 119, 38, 184, 180, 124, 17, 68, 146, 217, 35, 32, 137, 46, 55,
   63, 209, 91, 149, 188, 207, 205, 144, 135, 151, 178, 220, 252, 190, 97,
   242, 86, 211, 171, 20, 42, 93, 158, 132, 60, 57, 83, 71, 109, 65, 162,
   31, 45, 67, 216, 183, 123, 164, 118, 196, 23, 73, 236, 127, 12, 111, 246,
   108, 161, 59, 82, 41, 157, 85, 170, 251, 96, 134, 177, 187, 204, 62, 90,
   203, 89, 95, 176, 156, 169, 160, 81, 11, 245, 22, 235, 122, 117, 44, 215,
   79, 174, 213, 233, 230, 231, 173, 232, 116, 214, 244, 234, 168, 80, 88,
   175]

theorem xtimeN_lt : ∀ a, a < 256 → xtimeN a < 256 := by decide

theorem gmulAuxN_lt : ∀ fuel a b, a < 256 → gmulAuxN fuel a b < 256 := by
  intro fuel
  induction fuel with
  | zero => intro a b _; simp [gmulAuxN]
  | succ n ih =>
      intro a b ha
      have h1 : (if b % 2 = 1 then a else 0) < 256 := by
        split
        · exact ha
        · norm_num
      have h2 : gmulAuxN n (xtimeN a) (b / 2) < 256 := ih _ _ (xtimeN_lt a ha)
      have h256 : (256 : Nat) = 2 ^ 8 := by norm_num
      rw [gmulAuxN, h256]
      exact Nat.xor_lt_two_pow (h256 ▸ h1) (h256 ▸ h2)

theorem gmulN_lt (a b : Nat) (ha : a < 256) : gmulN a b < 256 :=
  gmulAuxN_lt 8 a b ha

theorem gmulAuxN_zero_left : ∀ fuel b, gmulAuxN fuel 0 b = 0 := by
  intro fuel
  induction fuel with
  | zero => intro b; rfl
  | succ n ih =>
      intro b
      have hx : xtimeN 0 = 0 := by decide
      rw [gmulAuxN, hx, ih]
      split <;> rfl

theorem gmulAuxN_zero_right : ∀ fuel a, gmulAuxN fuel a 0 = 0 := by
  intro fuel
  induction fuel with
  | zero => intro a; rfl
  | succ n ih => intro a; rw [gmulAuxN]; simp [ih]

theorem gmulN_zero_left (b : Nat) : gmulN 0 b = 0 := gmulAuxN_zero_left 8 b

theorem gmulN_zero_right (a : Nat) : gmulN a 0 = 0 := gmulAuxN_zero_right 8 a

theorem gmulN_one_left : ∀ b, b < 256 → gmulN 1 b = b := by decide

theorem gmulN_one_right : ∀ a, a < 256 → gmulN a 1 = a := by decide

theorem xor_div_two (x y : Nat) : (x ^^^ y) / 2 = (x / 2) ^^^ (y / 2) := by
  apply Nat.eq_of_testBit_eq
  intro i
  simp [Nat.testBit_div_two, Nat.testBit_xor]

theorem xor_mod_two (x y : Nat) :
    (x ^^^ y) % 2 = (x % 2) ^^^ (y % 2) := by
  have h := Nat.testBit_xor x y 0
  have hx := Nat.mod_two_eq_zero_or_one x
  have hy := Nat.mod_two_eq_zero_or_one y
  have hz := Nat.mod_two_eq_zero_or_one (x ^^^ y)
  simp only [Nat.testBit_zero] at h
  rcases hx with hx | hx <;> rcases hy with hy | hy <;>
    simp [hx, hy, decide_eq_true_eq] at h ⊢ <;> omega

/-- `gmulN` distributes over xor in its second argument. -/
theorem gmulAuxN_xor_right (fuel : Nat) :
    ∀ a b c, gmulAuxN fuel a (b ^^^ c) =
      gmulAuxN fuel a b ^^^ gmulAuxN fuel a c := by
  induction fuel with
  | zero => intro a b c; simp [gmulAuxN]
  | succ n ih =>
      intro a b c
      simp only [gmulAuxN, xor_div_two, ih, xor_mod_two]
      set X := gmulAuxN n (xtimeN a) (b / 2) with hX
      set Y := gmulAuxN n (xtimeN a) (c / 2) with hY
      rcases Nat.mod_two_eq_zero_or_one b with hb | hb <;>
        rcases Nat.mod_two_eq_zero_or_one c with hc | hc <;>
        simp only [hb, hc]
      · norm_num
      · show (if 0 ^^^ 1 = 1 then a else 0) ^^^ (X ^^^ Y)
            = (if (0 : Nat) = 1 then a else 0) ^^^ X ^^^
              ((if (1 : Nat) = 1 then a else 0) ^^^ Y)
        norm_num
        ac_rfl
      · show (if 1 ^^^ 0 = 1 then a else 0) ^^^ (X ^^^ Y)
            = (if (1 : Nat) = 1 then a else 0) ^^^ X ^^^
              ((if (0 : Nat) = 1 then a else 0) ^^^ Y)
        norm_num
        ac_rfl
      · show (if 1 ^^^ 1 = 1 then a else 0) ^^^ (X ^^^ Y)
            = (if (1 : Nat) = 1 then a else 0) ^^^ X ^^^
              ((if (1 : Nat) = 1 then a else 0) ^^^ Y)
        norm_num
        rw [Nat.xor_comm a X, Nat.xor_assoc, ← Nat.xor_assoc a a,
            Nat.xor_self, Nat.zero_xor]

theorem gmulN_xor_right (a b c : Nat) :
    gmulN a (b ^^^ c) = gmulN a b ^^^ gmulN a c :=
  gmulAuxN_xor_right 8 a b c

theorem two_mul_xor (x y : Nat) : 2 * (x ^^^ y) = 2 * x ^^^ 2 * y := by
  apply Nat.eq_of_testBit_eq
  intro i
  cases i with
  | zero =>
      simp [Nat.testBit_zero, Nat.mul_mod_right, Nat.testBit_xor]
  | succ n =>
      rw [Nat.testBit_xor, ← Nat.testBit_div_two (2 * (x ^^^ y)) n,
          ← Nat.testBit_div_two (2 * x) n, ← Nat.testBit_div_two (2 * y) n,
          Nat.mul_div_cancel_left _ (by norm_num : (0 : Nat) < 2),
          Nat.mul_div_cancel_left _ (by norm_num : (0 : Nat) < 2),
          Nat.mul_div_cancel_left _ (by norm_num : (0 : Nat) < 2),
          Nat.testBit_xor]

theorem testBit7_of_ge (x : Nat) (h1 : 128 ≤ x) (h2 : x < 256) :
    x.testBit 7 = true := by
  rw [Nat.testBit_to_div_mod, show (2 : Nat) ^ 7 = 128 from by norm_num]
  have h : x / 128 % 2 = 1 := by omega
  simp [h]

theorem testBit7_of_lt (x : Nat) (h1 : x < 128) : x.testBit 7 = false := by
  rw [Nat.testBit_to_div_mod, show (2 : Nat) ^ 7 = 128 from by norm_num]
  have h : x / 128 % 2 = 0 := by omega
  simp [h]

theorem lt128_of_testBit7 (x : Nat) (h2 : x < 256)
    (h : x.testBit 7 = false) : x < 128 := by
  rw [Nat.testBit_to_div_mod, show (2 : Nat) ^ 7 = 128 from by norm_num] at h
  simp at h
  omega

theorem ge128_of_testBit7 (x : Nat) (h : x.testBit 7 = true) : 128 ≤ x := by
  rw [Nat.testBit_to_div_mod, show (2 : Nat) ^ 7 = 128 from by norm_num] at h
  simp at h
  omega

/-- `xtimeN` is xor-linear on field representatives. -/
theorem xtimeN_xor : ∀ a, a < 256 → ∀ b, b < 256 →
    xtimeN (a ^^^ b) = xtimeN a ^^^ xtimeN b := by
  intro a ha b hb
  have h256 : (256 : Nat) = 2 ^ 8 := by norm_num
  have h128 : (128 : Nat) = 2 ^ 7 := by norm_num
  by_cases h1 : a < 128 <;> by_cases h2 : b < 128
  · have hab : a ^^^ b < 128 := by
      rw [h128]
      exact Nat.xor_lt_two_pow (h128 ▸ h1) (h128 ▸ h2)
    rw [xtimeN, if_pos hab, xtimeN, if_pos h1, xtimeN, if_pos h2,
        two_mul_xor]
  · have ha7 : a.testBit 7 = false := testBit7_of_lt a h1
    have hb7 : b.testBit 7 = true := testBit7_of_ge b (by omega) hb
    have hab7 : (a ^^^ b).testBit 7 = true := by
      rw [Nat.testBit_xor, ha7, hb7]
      rfl
    have hab : ¬a ^^^ b < 128 := by
      have := ge128_of_testBit7 _ hab7
      omega
    rw [xtimeN, if_neg hab, xtimeN, if_pos h1, xtimeN, if_neg h2,
        two_mul_xor]
    ac_rfl
  · have ha7 : a.testBit 7 = true := testBit7_of_ge a (by omega) ha
    have hb7 : b.testBit 7 = false := testBit7_of_lt b h2
    have hab7 : (a ^^^ b).testBit 7 = true := by
      rw [Nat.testBit_xor, ha7, hb7]
      rfl
    have hab : ¬a ^^^ b < 128 := by
      have := ge128_of_testBit7 _ hab7
      omega
    rw [xtimeN, if_neg hab, xtimeN, if_neg h1, xtimeN, if_pos h2,
        two_mul_xor]
    ac_rfl
  · have ha7 : a.testBit 7 = true := testBit7_of_ge a (by omega) ha
    have hb7 : b.testBit 7 = true := testBit7_of_ge b (by omega) hb
    have hab7 : (a ^^^ b).testBit 7 = false := by
      rw [Nat.testBit_xor, ha7, hb7]
      rfl
    have hab256 : a ^^^ b < 256 := by
      rw [h256]
      exact Nat.xor_lt_two_pow (h256 ▸ ha) (h256 ▸ hb)
    have hab : a ^^^ b < 128 := lt128_of_testBit7 _ hab256 hab7
    rw [xtimeN, if_pos hab, xtimeN, if_neg h1, xtimeN, if_neg h2,
        two_mul_xor,
        show (2 * a ^^^ 285) ^^^ (2 * b ^^^ 285)
          = (2 * a ^^^ 2 * b) ^^^ (285 ^^^ 285) from by ac_rfl,
        Nat.xor_self, Nat.xor_zero]

/-- `gmulN` distributes over xor in its first argument (on field
representatives). -/
theorem gmulAuxN_xor_left (fuel : Nat) :
    ∀ a a2 b, a < 256 → a2 < 256 → gmulAuxN fuel (a ^^^ a2) b =
      gmulAuxN fuel a b ^^^ gmulAuxN fuel a2 b := by
  induction fuel with
  | zero => intro a a2 b _ _; simp [gmulAuxN]
  | succ n ih =>
      intro a a2 b ha ha2
      simp only [gmulAuxN, xtimeN_xor a ha a2 ha2,
        ih (xtimeN a) (xtimeN a2) (b / 2) (xtimeN_lt a ha) (xtimeN_lt a2 ha2)]
      rcases Nat.mod_two_eq_zero_or_one b with hb | hb <;> simp [hb]
      ac_rfl

theorem gmulN_xor_left (a a2 b : Nat) (ha : a < 256) (ha2 : a2 < 256) :
    gmulN (a ^^^ a2) b = gmulN a b ^^^ gmulN a2 b :=
  gmulAuxN_xor_left 8 a a2 b ha ha2

/-- Looking up the antilog table. -/
def gfExp (i : Nat) : Nat := gfExpTable.getD i 0

/-- Looking up the log table. -/
def gfLog (a : Nat) : Nat := gfLogTable.getD a 0

theorem gfExp_lt : ∀ i, i < 255 → gfExp i < 256 := by decide

theorem gfExp_pos : ∀ i, i < 255 → 0 < gfExp i := by decide

theorem gfLog_lt : ∀ a, a < 256 → gfLog a < 255 := by decide

theorem gfLog_gfExp : ∀ i, i < 255 → gfLog (gfExp i) = i := by decide

theorem gfExp_gfLog : ∀ a, a < 256 → 0 < a → gfExp (gfLog a) = a := by decide

theorem gfExp_succ : ∀ i, i < 254 → gfExp (i + 1) = xtimeN (gfExp i) := by
  decide

theorem gfExp_zero : gfExp 0 = 1 := rfl

theorem xtimeN_gfExp_last : xtimeN (gfExp 254) = 1 := by decide

/-- Multiplying the first factor by `x` commutes with the field
multiplication loop. -/
theorem gmulAuxN_xtimeN (fuel : Nat) :
    ∀ a b, a < 256 → gmulAuxN fuel (xtimeN a) b
      = xtimeN (gmulAuxN fuel a b) := by
  induction fuel with
  | zero =>
      intro a b _
      show (0 : Nat) = xtimeN 0
      rfl
  | succ n ih =>
      intro a b ha
      have hxa : xtimeN a < 256 := xtimeN_lt a ha
      have hif : (if b % 2 = 1 then a else 0) < 256 := by
        split
        · exact ha
        · norm_num
      rw [gmulAuxN, gmulAuxN, ih (xtimeN a) (b / 2) hxa,
          xtimeN_xor _ hif _ (gmulAuxN_lt n (xtimeN a) (b / 2) hxa)]
      rcases Nat.mod_two_eq_zero_or_one b with hb2 | hb2 <;>
        simp [hb2, xtimeN]

/-- The antilog table realizes the multiplicative group: products of
table entries add their indices modulo 255. -/
theorem gmulN_exp_exp : ∀ i, i < 255 → ∀ j, j < 255 →
    gmulN (gfExp i) (gfExp j) = gfExp ((i + j) % 255) := by
  intro i
  induction i with
  | zero =>
      intro _ j hj
      rw [gfExp_zero, gmulN_one_left _ (gfExp_lt j hj), Nat.zero_add,
          Nat.mod_eq_of_lt hj]
  | succ m ih =>
      intro hm j hj
      have hm255 : m < 255 := by omega
      rw [gfExp_succ m (by omega), gmulN,
          gmulAuxN_xtimeN 8 _ _ (gfExp_lt m hm255),
          show gmulAuxN 8 (gfExp m) (gfExp j) = gmulN (gfExp m) (gfExp j)
            from rfl,
          ih hm255 j hj]
      by_cases hmj : (m + j) % 255 = 254
      · rw [hmj, show (m + 1 + j) % 255 = 0 from by omega, gfExp_zero,
            xtimeN_gfExp_last]
      · have h2 : (m + j) % 255 < 254 := by omega
        rw [← gfExp_succ _ h2]
        congr 1
        omega

theorem gmulN_expLog (i j : Nat) (hi : i < 255) (hj : j < 255) :
    ∀ x y, x = gfExp i → y = gfExp j → gmulN x y = gfExp ((i + j) % 255) := by
  intro x y hx hy
  rw [hx, hy]
  exact gmulN_exp_exp i hi j hj

/-- GF(2^8) multiplication is commutative on field representatives. -/
theorem gmulN_comm (a b : Nat) (ha : a < 256) (hb : b < 256) :
    gmulN a b = gmulN b a := by
  rcases Nat.eq_zero_or_pos a with haz | hap
  · rw [haz, gmulN_zero_left, gmulN_zero_right]
  rcases Nat.eq_zero_or_pos b with hbz | hbp
  · rw [hbz, gmulN_zero_left, gmulN_zero_right]
  have hea := gfExp_gfLog a ha hap
  have heb := gfExp_gfLog b hb hbp
  rw [gmulN_expLog (gfLog a) (gfLog b) (gfLog_lt a ha) (gfLog_lt b hb) a b
        hea.symm heb.symm,
      gmulN_expLog (gfLog b) (gfLog a) (gfLog_lt b hb) (gfLog_lt a ha) b a
        heb.symm hea.symm,
      Nat.add_comm]

/-- GF(2^8) multiplication is associative on field representatives. -/
theorem gmulN_assoc (a b c : Nat) (ha : a < 256) (hb : b < 256)
    (hc : c < 256) : gmulN (gmulN a b) c = gmulN a (gmulN b c) := by
  rcases Nat.eq_zero_or_pos a with haz | hap
  · simp [haz, gmulN_zero_left, gmulN_zero_right]
  rcases Nat.eq_zero_or_pos b with hbz | hbp
  · simp [hbz, gmulN_zero_left, gmulN_zero_right]
  rcases Nat.eq_zero_or_pos c with hcz | hcp
  · simp [hcz, gmulN_zero_left, gmulN_zero_right]
  have hea := gfExp_gfLog a ha hap
  have heb := gfExp_gfLog b hb hbp
  have hec := gfExp_gfLog c hc hcp
  have hla := gfLog_lt a ha
  have hlb := gfLog_lt b hb
  have hlc := gfLog_lt c hc
  have hab := gmulN_expLog (gfLog a) (gfLog b) hla hlb a b hea.symm heb.symm
  have hbc := gmulN_expLog (gfLog b) (gfLog c) hlb hlc b c heb.symm hec.symm
  rw [hab, hbc,
      gmulN_expLog ((gfLog a + gfLog b) % 255) (gfLog c)
        (Nat.mod_lt _ (by norm_num)) hlc _ c rfl hec.symm,
      gmulN_expLog (gfLog a) ((gfLog b + gfLog c) % 255) hla
        (Nat.mod_lt _ (by norm_num)) a _ hea.symm rfl]
  congr 1
  omega

/-- An element of GF(2^8): a natural number below 256 (one 8-bit symbol /
ASCII character of the Reed-Solomon coder). -/
structure GF where
  val : Nat
  isLt : val < 256
deriving DecidableEq

theorem GF.val_lt (a : GF) : a.val < 256 := a.isLt

theorem GF.ext_val : ∀ {a b : GF}, a.val = b.val → a = b := by
  intro a b h
  cases a
  cases b
  simp_all

instance : Zero GF := ⟨⟨0, by norm_num⟩⟩

instance : One GF := ⟨⟨1, by norm_num⟩⟩

instance : Add GF :=
  ⟨fun a b => ⟨a.val ^^^ b.val, by
    have h256 : (256 : Nat) = 2 ^ 8 := by norm_num
    rw [h256]
    exact Nat.xor_lt_two_pow (h256 ▸ a.isLt) (h256 ▸ b.isLt)⟩⟩

instance : Mul GF := ⟨fun a b => ⟨gmulN a.val b.val, gmulN_lt _ _ a.isLt⟩⟩

instance : Neg GF := ⟨fun a => a⟩

theorem GF.add_val (a b : GF) : (a + b).val = a.val ^^^ b.val := rfl

theorem GF.mul_val (a b : GF) : (a * b).val = gmulN a.val b.val := rfl

theorem GF.zero_val : (0 : GF).val = 0 := rfl

theorem GF.one_val : (1 : GF).val = 1 := rfl

/-- GF(2^8) with xor addition and carry-less modular multiplication is a
commutative ring (in fact a field; the ring structure is all the
Reed-Solomon development needs). -/
instance : CommRing GF where
  add_assoc a b c := GF.ext_val (by simp [GF.add_val, Nat.xor_assoc])
  zero_add a := GF.ext_val (by simp [GF.add_val, GF.zero_val, Nat.zero_xor])
  add_zero a := GF.ext_val (by simp [GF.add_val, GF.zero_val, Nat.xor_zero])
  add_comm a b := GF.ext_val (by simp [GF.add_val, Nat.xor_comm])
  neg_add_cancel a := GF.ext_val (by
    show a.val ^^^ a.val = 0
    exact Nat.xor_self _)
  mul_assoc a b c := GF.ext_val (by
    simp only [GF.mul_val]
    exact gmulN_assoc _ _ _ a.isLt b.isLt c.isLt)
  mul_comm a b := GF.ext_val (by
    simp only [GF.mul_val]
    exact gmulN_comm _ _ a.isLt b.isLt)
  one_mul a := GF.ext_val (by
    simp only [GF.mul_val, GF.one_val]
    exact gmulN_one_left _ a.isLt)
  mul_one a := GF.ext_val (by
    simp only [GF.mul_val, GF.one_val]
    exact gmulN_one_right _ a.isLt)
  zero_mul a := GF.ext_val (by
    simp only [GF.mul_val, GF.zero_val]
    exact gmulN_zero_left _)
  mul_zero a := GF.ext_val (by
    simp only [GF.mul_val, GF.zero_val]
    exact gmulN_zero_right _)
  left_distrib a b c := GF.ext_val (by
    simp only [GF.mul_val, GF.add_val]
    exact gmulN_xor_right _ _ _)
  right_distrib a b c := GF.ext_val (by
    simp only [GF.mul_val, GF.add_val]
    exact gmulN_xor_left _ _ _ a.isLt b.isLt)
  nsmul := nsmulRec
  zsmul := zsmulRec

/-- Characteristic two: every GF element is its own additive inverse. -/
theorem GF.add_self (a : GF) : a + a = 0 :=
  GF.ext_val (Nat.xor_self a.val)

/-- The primitive element alpha = 2 of GF(2^8). -/
def gfAlpha : GF := ⟨2, by norm_num⟩

/-- Powers of the primitive element, used for the generator-polynomial
roots and the syndrome evaluation points. -/
def alphaPow (i : Nat) : GF := gfAlpha ^ i

/-! ## Polynomials as coefficient lists

Executable polynomial arithmetic over a commutative ring, used by the
Reed-Solomon model: a polynomial is its list of coefficients, lowest
degree first.  `polyMod` is long division by a monic divisor, returning
the remainder, exactly the computation the spec describes for parity
generation (polynomial division against the generator polynomial). -/

variable {R : Type} [CommRing R]

/-- Coefficient-wise polynomial addition (lists may have different
lengths; the longer tail is kept). -/
def padd : List R → List R → List R
  | [], ys => ys
  | x :: xs, [] => x :: xs
  | x :: xs, y :: ys => (x + y) :: padd xs ys

/-- Multiply a polynomial by a scalar. -/
def pscale (c : R) (p : List R) : List R := p.map (fun x => c * x)

/-- Polynomial multiplication (convolution of coefficient lists). -/
def pmul : List R → List R → List R
  | [], _ => []
  | x :: xs, ys => padd (pscale x ys) ((0 : R) :: pmul xs ys)

/-- Horner evaluation of a coefficient list at a point. -/
def evalP : List R → R → R
  | [], _ => 0
  | c :: cs, a => c + a * evalP cs a

theorem padd_nil_right (xs : List R) : padd xs [] = xs := by
  cases xs <;> rfl

theorem padd_length (xs : List R) :
    ∀ ys : List R, (padd xs ys).length = max xs.length ys.length := by
  induction xs with
  | nil => intro ys; simp [padd]
  | cons x xs ih =>
      intro ys
      cases ys with
      | nil => simp [padd]
      | cons y ys => simp [padd, ih, Nat.succ_max_succ]

theorem evalP_padd (xs : List R) :
    ∀ (ys : List R) (a : R),
      evalP (padd xs ys) a = evalP xs a + evalP ys a := by
  induction xs with
  | nil => intro ys a; simp [padd, evalP]
  | cons x xs ih =>
      intro ys a
      cases ys with
      | nil => simp [padd, evalP]
      | cons y ys =>
          simp only [padd, evalP, ih]
          ring

theorem evalP_pscale (c : R) (p : List R) (a : R) :
    evalP (pscale c p) a = c * evalP p a := by
  induction p with
  | nil => simp [pscale, evalP]
  | cons x xs ih =>
      simp only [pscale, List.map_cons, evalP] at ih ⊢
      rw [ih]
      ring

theorem evalP_pmul (xs : List R) :
    ∀ (ys : List R) (a : R),
      evalP (pmul xs ys) a = evalP xs a * evalP ys a := by
  induction xs with
  | nil => intro ys a; simp [pmul, evalP]
  | cons x xs ih =>
      intro ys a
      simp only [pmul, evalP, evalP_padd, evalP_pscale, ih]
      ring


theorem evalP_append (xs : List R) :
    ∀ (ys : List R) (a : R),
      evalP (xs ++ ys) a = evalP xs a + a ^ xs.length * evalP ys a := by
  induction xs with
  | nil => intro ys a; simp [evalP]
  | cons x xs ih =>
      intro ys a
      simp only [List.cons_append, evalP, List.length_cons, List.append_eq]
      rw [ih]
      ring

theorem evalP_replicate_zero (d : Nat) (a : R) :
    evalP (List.replicate d (0 : R)) a = 0 := by
  induction d with
  | zero => simp [evalP]
  | succ n ih => simp [List.replicate_succ, evalP, ih]

theorem evalP_shift (d : Nat) (p : List R) (a : R) :
    evalP (List.replicate d (0 : R) ++ p) a = a ^ d * evalP p a := by
  rw [evalP_append, evalP_replicate_zero, List.length_replicate]
  ring

theorem evalP_append_zeros (p : List R) (m : Nat) (a : R) :
    evalP (p ++ List.replicate m (0 : R)) a = evalP p a := by
  rw [evalP_append, evalP_replicate_zero]
  ring

/-- The leading coefficient of a coefficient list (0 for the empty list). -/
def plead : List R → R
  | [] => 0
  | [x] => x
  | _ :: x :: xs => plead (x :: xs)

theorem plead_cons_of_ne_nil (x : R) (xs : List R) (h : xs ≠ []) :
    plead (x :: xs) = plead xs := by
  cases xs with
  | nil => exact absurd rfl h
  | cons y ys => rfl

theorem evalP_dropLast (l : List R) (a : R) (hl : l ≠ []) :
    evalP l a = evalP l.dropLast a + a ^ (l.length - 1) * plead l := by
  induction l with
  | nil => exact absurd rfl hl
  | cons x xs ih =>
      cases xs with
      | nil => simp [evalP, plead]
      | cons y ys =>
          have hne : (y :: ys : List R) ≠ [] := by simp
          rw [show evalP (x :: y :: ys) a = x + a * evalP (y :: ys) a from rfl,
              ih hne, plead_cons_of_ne_nil x _ hne,
              List.dropLast_cons₂,
              show evalP (x :: (y :: ys).dropLast) a
                = x + a * evalP ((y :: ys).dropLast) a from rfl]
          simp only [List.length_cons, Nat.add_sub_cancel]
          rw [pow_succ]
          ring

theorem padd_plead_of_length_eq (xs : List R) :
    ∀ ys : List R, xs.length = ys.length →
      plead (padd xs ys) = plead xs + plead ys := by
  induction xs with
  | nil =>
      intro ys h
      have hy : ys = [] := List.length_eq_zero.mp h.symm
      simp [hy, padd, plead]
  | cons x xs ih =>
      intro ys h
      cases ys with
      | nil => simp at h
      | cons y ys =>
          simp only [List.length_cons, Nat.succ.injEq] at h
          cases xs with
          | nil =>
              have hy : ys = [] := List.length_eq_zero.mp h.symm
              simp [hy, padd, plead]
          | cons x2 xs2 =>
              cases ys with
              | nil => simp at h
              | cons y2 ys2 =>
                  have h1 : (x2 :: xs2 : List R) ≠ [] := by simp
                  have h2 : (y2 :: ys2 : List R) ≠ [] := by simp
                  have h3 : padd (x2 :: xs2) (y2 :: ys2) ≠ [] := by
                    have := padd_length (x2 :: xs2 : List R) (y2 :: ys2)
                    intro hc
                    rw [hc] at this
                    simp only [List.length_nil, List.length_cons] at this
                    omega
                  rw [show padd (x :: x2 :: xs2) (y :: y2 :: ys2)
                        = (x + y) :: padd (x2 :: xs2) (y2 :: ys2) from rfl,
                      plead_cons_of_ne_nil _ _ h3,
                      plead_cons_of_ne_nil _ _ h1,
                      plead_cons_of_ne_nil _ _ h2]
                  exact ih _ h

theorem pscale_length (c : R) (p : List R) :
    (pscale c p).length = p.length := by
  simp [pscale]

theorem plead_pscale (c : R) (p : List R) :
    plead (pscale c p) = c * plead p := by
  induction p with
  | nil => simp [pscale, plead]
  | cons x xs ih =>
      cases xs with
      | nil => simp [pscale, plead]
      | cons y ys =>
          have h1 : (y :: ys : List R) ≠ [] := by simp
          have h2 : pscale c (y :: ys) ≠ [] := by simp [pscale]
          rw [show pscale c (x :: y :: ys) = (c * x) :: pscale c (y :: ys)
                from rfl,
              plead_cons_of_ne_nil _ _ h2, plead_cons_of_ne_nil _ _ h1, ih]

theorem plead_replicate_append (d : Nat) (g : List R) (hg : g ≠ []) :
    plead (List.replicate d (0 : R) ++ g) = plead g := by
  induction d with
  | zero => rfl
  | succ n ih =>
      have h1 : List.replicate n (0 : R) ++ g ≠ [] := by
        simp [hg]
      rw [List.replicate_succ, List.cons_append, plead_cons_of_ne_nil _ _ h1,
          ih]

/-- Remainder of polynomial long division by a (monic) divisor `g`:
repeatedly cancel the leading coefficient of `f` against the suitably
shifted divisor until the degree drops below that of `g`. -/
def polyMod (g : List R) (f : List R) : List R :=
  if _hg : g.length = 0 then f
  else if _hf : f.length < g.length then f
  else
    polyMod g
      (padd f (pscale (-(plead f))
        (List.replicate (f.length - g.length) (0 : R) ++ g))).dropLast
termination_by f.length
decreasing_by
  simp only [List.length_dropLast, padd_length, pscale_length,
    List.length_append, List.length_replicate]
  omega

theorem polyModStep_length (g f : List R) (hgle : g.length ≤ f.length) :
    ((padd f (pscale (-(plead f))
      (List.replicate (f.length - g.length) (0 : R) ++ g))).dropLast).length
      = f.length - 1 := by
  simp only [List.length_dropLast, padd_length, pscale_length,
    List.length_append, List.length_replicate]
  omega

theorem polyMod_length_lt (g : List R) (hg : g ≠ []) :
    ∀ f : List R, (polyMod g f).length < g.length := by
  have hgpos : 0 < g.length := List.length_pos.mpr hg
  have H : ∀ (n : Nat) (f : List R), f.length ≤ n →
      (polyMod g f).length < g.length := by
    intro n
    induction n with
    | zero =>
        intro f hf
        have hf0 : f.length = 0 := Nat.le_zero.mp hf
        rw [polyMod]
        split
        · omega
        split
        · omega
        · omega
    | succ m ih =>
        intro f hf
        rw [polyMod]
        split
        · omega
        split
        · assumption
        · rename_i hgl hfl
          apply ih
          rw [polyModStep_length g f (by omega)]
          omega
  exact fun f => H f.length f le_rfl

theorem polyMod_lt_eq (g f : List R) (h : f.length < g.length) :
    polyMod g f = f := by
  rw [polyMod]
  by_cases h0 : g.length = 0
  · rw [dif_pos h0]
  · rw [dif_neg h0, dif_pos h]

theorem polyMod_step_eq (g f : List R) (h0 : ¬g.length = 0)
    (h : ¬f.length < g.length) :
    polyMod g f = polyMod g
      (padd f (pscale (-(plead f))
        (List.replicate (f.length - g.length) (0 : R) ++ g))).dropLast := by
  conv_lhs => rw [polyMod]
  rw [dif_neg h0, dif_neg h]

theorem polyMod_step_eval (g f : List R) (hg : g ≠ []) (hm : plead g = 1)
    (hgle : g.length ≤ f.length) (a : R) :
    evalP f a = evalP ((padd f (pscale (-(plead f))
        (List.replicate (f.length - g.length) (0 : R) ++ g))).dropLast) a
      + plead f * a ^ (f.length - g.length) * evalP g a := by
  have hgpos : 0 < g.length := List.length_pos.mpr hg
  have hshlen : (List.replicate (f.length - g.length) (0 : R) ++ g).length
      = f.length := by
    simp only [List.length_append, List.length_replicate]
    omega
  have hsumlen : (padd f (pscale (-(plead f))
      (List.replicate (f.length - g.length) (0 : R) ++ g))).length
      = f.length := by
    rw [padd_length, pscale_length, hshlen]
    omega
  have hsumne : padd f (pscale (-(plead f))
      (List.replicate (f.length - g.length) (0 : R) ++ g)) ≠ [] := by
    intro hc
    rw [hc] at hsumlen
    simp only [List.length_nil] at hsumlen
    omega
  have hplead : plead (padd f (pscale (-(plead f))
      (List.replicate (f.length - g.length) (0 : R) ++ g))) = 0 := by
    rw [padd_plead_of_length_eq _ _ (by rw [pscale_length, hshlen]),
        plead_pscale, plead_replicate_append _ _ hg, hm]
    ring
  have h1 : evalP (padd f (pscale (-(plead f))
      (List.replicate (f.length - g.length) (0 : R) ++ g))) a
      = evalP f a - plead f * (a ^ (f.length - g.length) * evalP g a) := by
    rw [evalP_padd, evalP_pscale, evalP_shift]
    ring
  have h2 : evalP (padd f (pscale (-(plead f))
      (List.replicate (f.length - g.length) (0 : R) ++ g))) a
      = evalP (padd f (pscale (-(plead f))
        (List.replicate (f.length - g.length) (0 : R) ++ g))).dropLast a := by
    rw [evalP_dropLast _ a hsumne, hplead]
    ring
  rw [← h2, h1]
  ring

/-- Long division is division: evaluating the dividend equals a
quotient-times-divisor contribution plus the evaluated remainder. -/
theorem polyMod_eval (g : List R) (hg : g ≠ []) (hm : plead g = 1) :
    ∀ (f : List R) (a : R),
      ∃ q : R, evalP f a = q * evalP g a + evalP (polyMod g f) a := by
  have hgpos : 0 < g.length := List.length_pos.mpr hg
  have H : ∀ (n : Nat) (f : List R), f.length ≤ n → ∀ a : R,
      ∃ q : R, evalP f a = q * evalP g a + evalP (polyMod g f) a := by
    intro n
    induction n with
    | zero =>
        intro f hf a
        have hf0 : f.length = 0 := Nat.le_zero.mp hf
        refine ⟨0, ?_⟩
        rw [polyMod_lt_eq g f (by omega)]
        ring
    | succ m ih =>
        intro f hf a
        by_cases hfl : f.length < g.length
        · refine ⟨0, ?_⟩
          rw [polyMod_lt_eq g f hfl]
          ring
        · have hgle : g.length ≤ f.length := Nat.le_of_not_lt hfl
          have hlen2 : ((padd f (pscale (-(plead f))
              (List.replicate (f.length - g.length) (0 : R) ++ g))).dropLast).length
              ≤ m := by
            rw [polyModStep_length g f hgle]
            omega
          obtain ⟨q, hq⟩ := ih _ hlen2 a
          refine ⟨q + plead f * a ^ (f.length - g.length), ?_⟩
          rw [polyMod_step_eq g f (by omega) hfl,
              polyMod_step_eval g f hg hm hgle a, hq]
          ring
  exact fun f a => H f.length f le_rfl a

theorem plead_padd_right (xs : List R) :
    ∀ ys : List R, xs.length < ys.length →
      plead (padd xs ys) = plead ys := by
  induction xs with
  | nil => intro ys h; cases ys <;> rfl
  | cons x xs ih =>
      intro ys h
      cases ys with
      | nil => simp at h
      | cons y ys2 =>
          simp only [List.length_cons] at h
          have hlen : xs.length < ys2.length := Nat.lt_of_succ_lt_succ h
          have hy2 : ys2 ≠ [] := by
            intro hc
            rw [hc] at hlen
            simp at hlen
          have hpne : padd xs ys2 ≠ [] := by
            intro hc
            have := padd_length xs ys2
            rw [hc] at this
            simp only [List.length_nil] at this
            omega
          rw [show padd (x :: xs) (y :: ys2) = (x + y) :: padd xs ys2 from rfl,
              plead_cons_of_ne_nil _ _ hpne, plead_cons_of_ne_nil _ _ hy2,
              ih _ hlen]

theorem pmul_lin_length (c : R) :
    ∀ p : List R, p ≠ [] → (pmul p [c, 1]).length = p.length + 1 := by
  intro p
  induction p with
  | nil => intro h; exact absurd rfl h
  | cons x xs ih =>
      intro _
      cases xs with
      | nil => rfl
      | cons y ys =>
          have hne : (y :: ys : List R) ≠ [] := by simp
          rw [show pmul (x :: y :: ys) [c, 1]
                = padd (pscale x [c, 1]) ((0 : R) :: pmul (y :: ys) [c, 1])
                from rfl,
              padd_length]
          simp only [pscale, List.map_cons, List.map_nil, List.length_cons,
            List.length_nil, ih hne]
          omega

theorem pmul_lin_plead (c : R) :
    ∀ p : List R, p ≠ [] → plead (pmul p [c, 1]) = plead p := by
  intro p
  induction p with
  | nil => intro h; exact absurd rfl h
  | cons x xs ih =>
      intro _
      cases xs with
      | nil =>
          show plead (padd [x * c, x * 1] [(0 : R)]) = x
          show plead ((x * c + 0) :: [x * 1]) = x
          show x * 1 = x
          ring
      | cons y ys =>
          have hne : (y :: ys : List R) ≠ [] := by simp
          have hpmulne : pmul (y :: ys) [c, 1] ≠ [] := by
            intro hc
            have := pmul_lin_length c (y :: ys) hne
            rw [hc] at this
            simp at this
          rw [show pmul (x :: y :: ys) [c, 1]
                = padd (pscale x [c, 1]) ((0 : R) :: pmul (y :: ys) [c, 1])
                from rfl,
              plead_padd_right, plead_cons_of_ne_nil _ _ hpmulne, ih hne,
              plead_cons_of_ne_nil _ _ hne]
          simp only [pscale, List.map_cons, List.map_nil, List.length_cons,
            List.length_nil, pmul_lin_length c (y :: ys) hne]
          omega

/-- Generator polynomial of the Reed-Solomon code with `d` parity symbols:
the product of the linear factors `(x - alpha^j)` for `j < d` (modelled from
the spec, section 4.2). -/
def genPoly (d : Nat) : List GF :=
  (List.range d).foldl (fun acc j => pmul acc [-(alphaPow j), 1]) [1]

theorem genPoly_succ (d : Nat) :
    genPoly (d + 1) = pmul (genPoly d) [-(alphaPow d), 1] := by
  unfold genPoly
  rw [List.range_succ, List.foldl_append]
  rfl

theorem genPoly_ne_nil (d : Nat) : genPoly d ≠ [] := by
  induction d with
  | zero => simp [genPoly]
  | succ n ih =>
      rw [genPoly_succ]
      intro hc
      have := pmul_lin_length (-(alphaPow n)) (genPoly n) ih
      rw [hc] at this
      simp at this

theorem genPoly_length (d : Nat) : (genPoly d).length = d + 1 := by
  induction d with
  | zero => simp [genPoly]
  | succ n ih =>
      rw [genPoly_succ, pmul_lin_length _ _ (genPoly_ne_nil n), ih]

theorem genPoly_monic (d : Nat) : plead (genPoly d) = 1 := by
  induction d with
  | zero => simp [genPoly, plead]
  | succ n ih =>
      rw [genPoly_succ, pmul_lin_plead _ _ (genPoly_ne_nil n), ih]

theorem genPoly_root (d : Nat) (j : Nat) (hj : j < d) :
    evalP (genPoly d) (alphaPow j) = 0 := by
  induction d with
  | zero => omega
  | succ n ih =>
      rw [genPoly_succ, evalP_pmul]
      rcases Nat.lt_succ_iff_lt_or_eq.mp hj with h | h
      · rw [ih h, zero_mul]
      · subst h
        have : evalP [-(alphaPow j), 1] (alphaPow j) = 0 := by
          show -(alphaPow j) + alphaPow j * (1 + alphaPow j * 0) = 0
          ring
        rw [this, mul_zero]

/-! ## The Reed-Solomon codeword coder

Modelled from the spec (section 4.2) and standing in for the
`unireedsolomon` `RSCoder` that the repository imports but does not
vendor: `coderEncode` computes the `n - k` parity symbols of one chunk of
`k` data symbols by polynomial division against the generator polynomial
and lays the codeword out as data followed by parity; `coderDecode`
computes syndromes, accepts the first `k` symbols when they all vanish,
otherwise locates errors with Berlekamp-Massey, computes magnitudes with
Forney, and raises (returns `Except.error`) when the error count exceeds
the correction bound `t` or the algorithm cannot converge.  Symbol lists
are in wire order (first symbol first); as polynomials they are read with
the first symbol as the highest-degree coefficient (hence the
`List.reverse` when switching views). -/

/-- Systematic Reed-Solomon encoding of one chunk of data symbols:
append the parity symbols obtained as the remainder of the shifted
message polynomial modulo the generator polynomial. -/
def coderEncode (n k : Nat) (msg : List GF) : List GF :=
  let d := n - k
  let f := List.replicate d (0 : GF) ++ msg.reverse
  let r := polyMod (genPoly d) f
  msg ++ (r ++ List.replicate (d - r.length) (0 : GF)).reverse

theorem coderEncode_parity_length (n k : Nat) (msg : List GF) :
    ((polyMod (genPoly (n - k)) (List.replicate (n - k) (0 : GF) ++ msg.reverse)
      ++ List.replicate ((n - k) - (polyMod (genPoly (n - k))
        (List.replicate (n - k) (0 : GF) ++ msg.reverse)).length)
        (0 : GF)).reverse).length = n - k := by
  have hr := polyMod_length_lt (genPoly (n - k)) (genPoly_ne_nil (n - k))
    (List.replicate (n - k) (0 : GF) ++ msg.reverse)
  rw [genPoly_length] at hr
  simp only [List.length_reverse, List.length_append, List.length_replicate]
  omega

theorem coderEncode_length (n k : Nat) (hk : k ≤ n) (msg : List GF)
    (hmsg : msg.length = k) : (coderEncode n k msg).length = n := by
  unfold coderEncode
  rw [List.length_append, hmsg, coderEncode_parity_length]
  omega

/-- The codeword produced by `coderEncode` evaluates to zero at every
syndrome point `alpha^j`, `j < n - k`. -/
theorem coderEncode_syndrome_zero (n k : Nat) (msg : List GF)
    (j : Nat) (hj : j < n - k) :
    evalP (coderEncode n k msg).reverse (alphaPow j) = 0 := by
  unfold coderEncode
  have hgne := genPoly_ne_nil (n - k)
  have hr := polyMod_length_lt (genPoly (n - k)) hgne
    (List.replicate (n - k) (0 : GF) ++ msg.reverse)
  rw [genPoly_length] at hr
  obtain ⟨q, hq⟩ := polyMod_eval (genPoly (n - k)) hgne
    (genPoly_monic (n - k))
    (List.replicate (n - k) (0 : GF) ++ msg.reverse) (alphaPow j)
  rw [List.reverse_append, List.reverse_reverse, evalP_append,
      evalP_append_zeros, List.length_append, List.length_replicate]
  have hlen : (polyMod (genPoly (n - k))
      (List.replicate (n - k) (0 : GF) ++ msg.reverse)).length
      + ((n - k) - (polyMod (genPoly (n - k))
        (List.replicate (n - k) (0 : GF) ++ msg.reverse)).length) = n - k := by
    omega
  rw [hlen]
  rw [evalP_shift] at hq
  rw [genPoly_root (n - k) j hj, mul_zero, zero_add] at hq
  rw [← hq]
  exact GF.add_self _

/-- Multiplicative inverse in GF(2^8) via `a^(256 - 2)` (0 is mapped to 0). -/
def gfInv (a : GF) : GF := a ^ 254

/-- Division in GF(2^8). -/
def gfDiv (a b : GF) : GF := a * gfInv b

/-- State of the Berlekamp-Massey iteration: current error-locator
estimate, previous estimate, current locator degree, shift since the last
update, and the last nonzero discrepancy. -/
structure BMState where
  sigma : List GF
  prev : List GF
  L : Nat
  m : Nat
  b : GF

/-- Discrepancy of the locator estimate against syndrome `i`. -/
def bmDiscrepancy (sigma synd : List GF) (i L : Nat) : GF :=
  (List.range (L + 1)).foldl
    (fun acc j => acc + sigma.getD j 0 * synd.getD (i - j) 0) 0

/-- One Berlekamp-Massey update step. -/
def bmStep (synd : List GF) (st : BMState) (i : Nat) : BMState :=
  let delta := bmDiscrepancy st.sigma synd i st.L
  if delta = 0 then { st with m := st.m + 1 }
  else if 2 * st.L ≤ i then
    { sigma := padd st.sigma (pscale (delta * gfInv st.b)
        (List.replicate st.m (0 : GF) ++ st.prev)),
      prev := st.sigma, L := i + 1 - st.L, m := 1, b := delta }
  else
    { st with
      sigma := padd st.sigma (pscale (delta * gfInv st.b)
        (List.replicate st.m (0 : GF) ++ st.prev)),
      m := st.m + 1 }

/-- Berlekamp-Massey: error-locator polynomial and located error count. -/
def bmRun (synd : List GF) : List GF × Nat :=
  let st := (List.range synd.length).foldl (bmStep synd)
    ⟨[1], [1], 0, 1, 1⟩
  (st.sigma, st.L)

/-- Formal derivative of a polynomial in characteristic two: even-index
coefficients of the shifted list survive, odd ones vanish. -/
def pderiv (p : List GF) : List GF :=
  (p.drop 1).enum.map (fun e => if e.1 % 2 = 0 then e.2 else 0)

/-- Chien search: the codeword positions whose inverse field element is a
root of the error locator. -/
def chienSearch (n : Nat) (sigma : List GF) : List Nat :=
  (List.range n).filter (fun i => evalP sigma (gfInv (alphaPow i)) = 0)

/-- Error correction of a received word (coefficient order): locate the
errors with Berlekamp-Massey and Chien search, bail out (`none`) when the
located error count exceeds `t = (n-k)/2` or the root count does not match
the locator degree, otherwise add the Forney error magnitudes at the error
positions. -/
def rsCorrect (n k : Nat) (W : List GF) (synd : List GF) :
    Option (List GF) :=
  let t := (n - k) / 2
  let bm := bmRun synd
  let sigma := bm.1
  let L := bm.2
  if L = 0 ∨ t < L then none
  else
    let errPos := chienSearch n sigma
    if errPos.length ≠ L then none
    else
      let om := (pmul synd sigma).take (n - k)
      let dsigma := pderiv sigma
      some (errPos.foldl (fun w i =>
        let xi := alphaPow i
        let xinv := gfInv xi
        let mag := xi * gfDiv (evalP om xinv) (evalP dsigma xinv)
        w.set i (w.getD i 0 + mag)) W)

/-- Decoding of one received codeword: compute the syndromes, accept the
data part unchanged when they all vanish, otherwise attempt error
correction; an uncorrectable word raises (`Except.error`), mirroring the
exception of the library coder. -/
def coderDecode (n k : Nat) (c : List GF) : Except Unit (List GF) :=
  let d := n - k
  let W := c.reverse
  let synd := (List.range d).map (fun j => evalP W (alphaPow j))
  if synd.all (fun s => s = 0) then Except.ok (c.take k)
  else
    match rsCorrect n k W synd with
    | some Wc => Except.ok (Wc.reverse.take k)
    | none => Except.error ()

theorem foldl_set_length (g : List GF → Nat → GF) :
    ∀ (l : List Nat) (W : List GF),
      (l.foldl (fun w i => w.set i (g w i)) W).length = W.length := by
  intro l
  induction l with
  | nil => intro W; rfl
  | cons x xs ih =>
      intro W
      simp only [List.foldl_cons, ih, List.length_set]

theorem rsCorrect_length (n k : Nat) (W synd : List GF) (Wc : List GF)
    (h : rsCorrect n k W synd = some Wc) : Wc.length = W.length := by
  simp only [rsCorrect] at h
  split at h
  · exact absurd h (by simp)
  · split at h
    · exact absurd h (by simp)
    · simp only [Option.some.injEq] at h
      rw [← h]
      exact foldl_set_length _ _ _

/-- A decoded codeword always carries `k` symbols (for an `n`-symbol
received word). -/
theorem coderDecode_length (n k : Nat) (hk : k ≤ n) (c : List GF)
    (hc : c.length = n) :
    ∀ r, coderDecode n k c = Except.ok r → r.length = k := by
  intro r h
  simp only [coderDecode] at h
  split at h
  · simp only [Except.ok.injEq] at h
    rw [← h, List.length_take, hc]
    omega
  · split at h
    · rename_i Wc hWc
      simp only [Except.ok.injEq] at h
      rw [← h, List.length_take, List.length_reverse,
          rsCorrect_length n k _ _ _ hWc, List.length_reverse, hc]
      omega
    · exact absurd h (by simp)

/-- Freshly encoded codewords decode to their data symbols: the syndromes
of an uncorrupted codeword all vanish, so the decoder takes the
accept-unchanged branch. -/
theorem coderDecode_coderEncode (n k : Nat) (hk : k ≤ n) (msg : List GF)
    (hmsg : msg.length = k) :
    coderDecode n k (coderEncode n k msg) = Except.ok msg := by
  simp only [coderDecode]
  have hall : ((List.range (n - k)).map
      (fun j => evalP (coderEncode n k msg).reverse (alphaPow j))).all
      (fun s => s = 0) = true := by
    rw [List.all_eq_true]
    intro s hs
    rw [List.mem_map] at hs
    obtain ⟨j, hj, hsj⟩ := hs
    rw [List.mem_range] at hj
    rw [← hsj]
    simp only [decide_eq_true_eq]
    exact coderEncode_syndrome_zero n k msg j hj
  rw [hall]
  simp only [if_true]
  congr 1
  unfold coderEncode
  rw [← hmsg, List.take_left]

/-! ## Bitstring / symbol conversion

Modelled from the spec (sections 2 and 6) and standing in for the
`bitstring_utils` helpers `bitstring_to_ascii` / `ascii_to_bitstring` the
repository imports but does not vendor: successive groups of 8 bits become
one 8-bit symbol (big-endian, the usual binary reading of the characters),
and each symbol expands back to its 8 bits. -/

/-- Big-endian value of a bit list. -/
def bitsToNatBE (l : List Bool) : Nat :=
  l.foldl (fun a b => 2 * a + b.toNat) 0

/-- Little-endian bit expansion of a natural number to a fixed width. -/
def natBitsLE : Nat → Nat → List Bool
  | 0, _ => []
  | w + 1, x => decide (x % 2 = 1) :: natBitsLE w (x / 2)

theorem bitsToNatBE_aux_lt :
    ∀ (l : List Bool) (acc m : Nat), acc < 2 ^ m →
      l.foldl (fun a b => 2 * a + b.toNat) acc < 2 ^ (m + l.length) := by
  intro l
  induction l with
  | nil => intro acc m h; simpa using h
  | cons b bs ih =>
      intro acc m h
      have hstep : 2 * acc + b.toNat < 2 ^ (m + 1) := by
        cases b <;> simp [Bool.toNat] <;> rw [pow_succ] <;> omega
      have := ih (2 * acc + b.toNat) (m + 1) hstep
      simpa [List.length_cons, Nat.add_assoc, Nat.add_comm,
        Nat.add_left_comm] using this

theorem bitsToNatBE_lt (l : List Bool) (h : l.length ≤ 8) :
    bitsToNatBE l < 256 := by
  have := bitsToNatBE_aux_lt l 0 0 (by norm_num)
  have h2 : 2 ^ (0 + l.length) ≤ 2 ^ 8 :=
    Nat.pow_le_pow_right (by norm_num) (by omega)
  calc bitsToNatBE l < 2 ^ (0 + l.length) := this
    _ ≤ 2 ^ 8 := h2
    _ = 256 := by norm_num

/-- One 8-bit group of a Python bitstring, read as a symbol. -/
def bitsToSym (l : List Bool) : GF :=
  ⟨bitsToNatBE (l.take 8), bitsToNatBE_lt _ (by
    simp only [List.length_take]
    omega)⟩

/-- The 8 bits of one symbol, most significant first. -/
def symToBits (g : GF) : List Bool := (natBitsLE 8 g.val).reverse

theorem natBitsLE_length : ∀ (w x : Nat), (natBitsLE w x).length = w := by
  intro w
  induction w with
  | zero => intro x; rfl
  | succ n ih => intro x; simp [natBitsLE, ih]

theorem symToBits_length (g : GF) : (symToBits g).length = 8 := by
  simp [symToBits, natBitsLE_length]

theorem bitsToNatBE_snoc (l : List Bool) (b : Bool) :
    bitsToNatBE (l ++ [b]) = 2 * bitsToNatBE l + b.toNat := by
  simp [bitsToNatBE, List.foldl_append]

theorem bitsToNatBE_natBitsLE :
    ∀ (w x : Nat), x < 2 ^ w → bitsToNatBE (natBitsLE w x).reverse = x := by
  intro w
  induction w with
  | zero =>
      intro x hx
      have : x = 0 := by simpa using hx
      simp [this, natBitsLE, bitsToNatBE]
  | succ n ih =>
      intro x hx
      have hdiv : x / 2 < 2 ^ n := by
        rw [pow_succ] at hx
        omega
      rw [natBitsLE, List.reverse_cons, bitsToNatBE_snoc, ih _ hdiv]
      rcases Nat.mod_two_eq_zero_or_one x with h | h <;>
        simp [h, Bool.toNat] <;> omega

theorem natBitsLE_bitsToNatBE :
    ∀ l : List Bool, natBitsLE l.length (bitsToNatBE l) = l.reverse := by
  intro l
  induction l using List.reverseRecOn with
  | nil => rfl
  | append_singleton l b ih =>
      rw [bitsToNatBE_snoc, List.length_append, List.length_singleton,
          natBitsLE]
      have h1 : (2 * bitsToNatBE l + b.toNat) % 2 = b.toNat := by
        cases b <;> simp [Bool.toNat] <;> omega
      have h2 : (2 * bitsToNatBE l + b.toNat) / 2 = bitsToNatBE l := by
        cases b <;> simp [Bool.toNat] <;> omega
      rw [h1, h2, ih, List.reverse_append]
      cases b <;> rfl

/-- Symbol-to-bits round trip on 8-bit groups. -/
theorem symToBits_bitsToSym (l : List Bool) (h : l.length = 8) :
    symToBits (bitsToSym l) = l := by
  have htake : l.take 8 = l := List.take_of_length_le (by omega)
  have : natBitsLE 8 (bitsToNatBE l) = l.reverse := by
    have := natBitsLE_bitsToNatBE l
    rwa [h] at this
  simp only [symToBits, bitsToSym, htake, this, List.reverse_reverse]

/-- Bits-to-symbol round trip. -/
theorem bitsToSym_symToBits (g : GF) : bitsToSym (symToBits g) = g := by
  apply GF.ext_val
  simp only [bitsToSym, symToBits]
  rw [List.take_of_length_le (by simp [natBitsLE_length])]
  exact bitsToNatBE_natBitsLE 8 g.val (by
    have := g.isLt
    norm_num
    omega)

/-- Split a list into consecutive chunks of `c` elements (the last chunk
may be shorter). -/
def chunkl (c : Nat) : List α → List (List α)
  | [] => []
  | x :: xs =>
      if c = 0 then [] else (x :: xs).take c :: chunkl c ((x :: xs).drop c)
termination_by l => l.length
decreasing_by
  simp only [List.length_drop, List.length_cons]
  omega

theorem chunkl_nil (c : Nat) : chunkl c ([] : List α) = [] := by
  simp [chunkl]

theorem chunkl_step (c : Nat) (l : List α) (hne : l ≠ []) (hc : c ≠ 0) :
    chunkl c l = l.take c :: chunkl c (l.drop c) := by
  cases l with
  | nil => exact absurd rfl hne
  | cons x xs => simp [chunkl, hc]

/-- `ascii_to_bitstring` applied to every symbol: a symbol list flattened
back to a bitstring. -/
def symbolsToBits (syms : List GF) : List Bool :=
  (syms.map symToBits).flatten

/-- `bitstring_to_ascii`: a bitstring packed into 8-bit symbols. -/
def bitsToSymbols (bits : List Bool) : List GF :=
  (chunkl 8 bits).map bitsToSym

theorem symbolsToBits_nil : symbolsToBits [] = [] := rfl

theorem symbolsToBits_cons (s : GF) (rest : List GF) :
    symbolsToBits (s :: rest) = symToBits s ++ symbolsToBits rest := by
  simp [symbolsToBits]

theorem symbolsToBits_append (a b : List GF) :
    symbolsToBits (a ++ b) = symbolsToBits a ++ symbolsToBits b := by
  simp [symbolsToBits]

theorem symbolsToBits_length (syms : List GF) :
    (symbolsToBits syms).length = 8 * syms.length := by
  induction syms with
  | nil => rfl
  | cons s rest ih =>
      rw [symbolsToBits_cons, List.length_append, symToBits_length, ih,
          List.length_cons]
      ring

/-- Bits-symbols-bits round trip for byte-aligned bitstrings. -/
theorem symbolsToBits_bitsToSymbols :
    ∀ bits : List Bool, bits.length % 8 = 0 →
      symbolsToBits (bitsToSymbols bits) = bits := by
  have H : ∀ (n : Nat) (bits : List Bool), bits.length ≤ n →
      bits.length % 8 = 0 → symbolsToBits (bitsToSymbols bits) = bits := by
    intro n
    induction n with
    | zero =>
        intro bits h1 _
        have : bits = [] := List.length_eq_zero.mp (Nat.le_zero.mp h1)
        simp [this, bitsToSymbols, chunkl_nil, symbolsToBits]
    | succ m ih =>
        intro bits h1 h2
        by_cases hnil : bits = []
        · simp [hnil, bitsToSymbols, chunkl_nil, symbolsToBits]
        · have hpos : 0 < bits.length := List.length_pos.mpr hnil
          have h8 : 8 ≤ bits.length := by omega
          have hstep : bitsToSymbols bits
              = bitsToSym (bits.take 8) :: bitsToSymbols (bits.drop 8) := by
            rw [bitsToSymbols, chunkl_step 8 bits hnil (by norm_num),
                List.map_cons]
            rfl
          rw [hstep, symbolsToBits_cons,
              symToBits_bitsToSym _ (by simp [List.length_take]; omega),
              ih (bits.drop 8) (by simp [List.length_drop]; omega)
                (by simp [List.length_drop]; omega),
              List.take_append_drop]
  exact fun bits h => H bits.length bits le_rfl h

/-- Symbols-bits-symbols round trip. -/
theorem bitsToSymbols_symbolsToBits :
    ∀ syms : List GF, bitsToSymbols (symbolsToBits syms) = syms := by
  intro syms
  induction syms with
  | nil => simp [symbolsToBits, bitsToSymbols, chunkl_nil]
  | cons s rest ih =>
      rw [symbolsToBits_cons]
      have hlen : (symToBits s).length = 8 := symToBits_length s
      have hnil : symToBits s ++ symbolsToBits rest ≠ [] := by
        intro hc
        have := congrArg List.length hc
        simp [hlen] at this
      rw [bitsToSymbols, chunkl_step 8 _ hnil (by norm_num)]
      have htake : (symToBits s ++ symbolsToBits rest).take 8 = symToBits s := by
        rw [← hlen]
        exact List.take_left _ _
      have hdrop : (symToBits s ++ symbolsToBits rest).drop 8
          = symbolsToBits rest := by
        rw [← hlen]
        exact List.drop_left _ _
      rw [htake, hdrop, List.map_cons, bitsToSym_symToBits]
      show s :: bitsToSymbols (symbolsToBits rest) = s :: rest
      rw [ih]

/-! ## The ReedSolomon wrapper class (src/error_correctors.py) -/

/-- `ReedSolomon.strength` (src lines 27-33): Python `(self.n - self.k)/2`
is true division, producing a fraction, not the floor. -/
def rsStrength (n k : Nat) : Rat := ((n : Rat) - (k : Rat)) / 2

/-- The encode loop of `ReedSolomon.encode` (src lines 84-94): walk the
symbol list in strides of `k`, zero-pad a short final chunk, and collect
the codeword of each chunk. -/
def rsEncodeLoop (n k : Nat) : List GF → List (List GF)
  | [] => []
  | s :: rest =>
      if k = 0 then []
      else
        (if (s :: rest).length < k
         then coderEncode n k ((s :: rest)
            ++ List.replicate (k - (s :: rest).length) (0 : GF))
         else coderEncode n k ((s :: rest).take k))
          :: rsEncodeLoop n k ((s :: rest).drop k)
termination_by l => l.length
decreasing_by
  simp only [List.length_drop, List.length_cons]
  omega

/-- `ReedSolomon.encode` (src lines 67-96): convert the bitstring to
symbols, encode chunk by chunk, and flatten the codewords back to a
bitstring (`codewords_to_bitstring`). -/
def rsEncode (n k : Nat) (bits : List Bool) : List Bool :=
  ((rsEncodeLoop n k (bitsToSymbols bits)).map symbolsToBits).flatten

/-- `ReedSolomon.bitstring_to_codewords` (src lines 35-50): cut the
bitstring into chunks of `n*8` bits and read each as a symbol string. -/
def bitstring_to_codewords (n : Nat) (bits : List Bool) : List (List GF) :=
  (chunkl (n * 8) bits).map bitsToSymbols

/-- The recovery of one codeword inside `ReedSolomon.decode` (src lines
113-121): the decoded data symbols, or on failure the uncorrected first
`k` symbols of the codeword. -/
def rsRecoverChunk (n k : Nat) (c : List GF) : List Bool :=
  match coderDecode n k c with
  | Except.ok m => symbolsToBits m
  | Except.error _ => symbolsToBits (c.take k)

/-- Whether one codeword decoded without the exception fallback. -/
def rsChunkOk (n k : Nat) (c : List GF) : Bool :=
  match coderDecode n k c with
  | Except.ok _ => true
  | Except.error _ => false

/-- The loop body of `ReedSolomon.decode` (src lines 113-121): append the
recovered bits of one codeword (with the try/except fallback) and update
the correctability flag. -/
def rsStep (n k : Nat) (acc : List Bool × Bool) (c : List GF) :
    List Bool × Bool :=
  match coderDecode n k c with
  | Except.ok m => (acc.1 ++ symbolsToBits m, acc.2)
  | Except.error _ => (acc.1 ++ symbolsToBits (c.take k), false)

/-- `ReedSolomon.decode` (src lines 98-122): decode each codeword,
falling back to its uncorrected data part on failure, concatenate the
recovered bits, and report whether every codeword was correctable. -/
def rsDecode (n k : Nat) (bits : List Bool) : List Bool × Bool :=
  (bitstring_to_codewords n bits).foldl (rsStep n k) ([], true)

theorem rsStep_eq (n k : Nat) (acc : List Bool × Bool) (c : List GF) :
    rsStep n k acc c
      = (acc.1 ++ rsRecoverChunk n k c, acc.2 && rsChunkOk n k c) := by
  rcases hdec : coderDecode n k c with e | m <;>
    simp [rsStep, rsRecoverChunk, rsChunkOk, hdec]

theorem rsDecode_foldl (n k : Nat) :
    ∀ (cws : List (List GF)) (acc : List Bool) (flag : Bool),
      cws.foldl (rsStep n k) (acc, flag)
      = (acc ++ (cws.map (rsRecoverChunk n k)).flatten,
         flag && cws.all (rsChunkOk n k)) := by
  intro cws
  induction cws with
  | nil => intro acc flag; simp
  | cons c rest ih =>
      intro acc flag
      rw [List.foldl_cons, rsStep_eq, ih]
      simp [List.append_assoc, Bool.and_assoc]

/-- `ReedSolomon.decode` in closed form: recovered bits chunk by chunk,
and the and-reduced correctability flag. -/
theorem rsDecode_eq (n k : Nat) (bits : List Bool) :
    rsDecode n k bits
      = (((bitstring_to_codewords n bits).map (rsRecoverChunk n k)).flatten,
         (bitstring_to_codewords n bits).all (rsChunkOk n k)) := by
  rw [rsDecode, rsDecode_foldl]
  simp

theorem flatten_chunkl (c : Nat) (hc : c ≠ 0) :
    ∀ l : List α, (chunkl c l).flatten = l := by
  have H : ∀ (n : Nat) (l : List α), l.length ≤ n →
      (chunkl c l).flatten = l := by
    intro n
    induction n with
    | zero =>
        intro l h
        have : l = [] := List.length_eq_zero.mp (Nat.le_zero.mp h)
        simp [this, chunkl_nil]
    | succ m ih =>
        intro l h
        by_cases hnil : l = []
        · simp [hnil, chunkl_nil]
        · have hpos : 0 < l.length := List.length_pos.mpr hnil
          rw [chunkl_step c l hnil hc, List.flatten_cons,
              ih (l.drop c) (by simp [List.length_drop]; omega),
              List.take_append_drop]
  exact fun l => H l.length l le_rfl

theorem chunkl_flatten_of_blocks (c : Nat) (hc : c ≠ 0) :
    ∀ blocks : List (List α), (∀ b ∈ blocks, b.length = c) →
      chunkl c blocks.flatten = blocks := by
  intro blocks
  induction blocks with
  | nil => intro _; simp [chunkl_nil]
  | cons b bs ih =>
      intro hlen
      have hb : b.length = c := hlen b (by simp)
      have hbs : ∀ x ∈ bs, x.length = c := fun x hx => hlen x (by simp [hx])
      have hbne : b ++ bs.flatten ≠ [] := by
        intro hcon
        have := congrArg List.length hcon
        simp [hb] at this
        omega
      rw [List.flatten_cons, chunkl_step c _ hbne hc]
      have htake : (b ++ bs.flatten).take c = b := by
        rw [← hb]
        exact List.take_left _ _
      have hdrop : (b ++ bs.flatten).drop c = bs.flatten := by
        rw [← hb]
        exact List.drop_left _ _
      rw [htake, hdrop, ih hbs]

theorem chunkl_length_mem (c : Nat) (hc : c ≠ 0) :
    ∀ l : List α, l.length % c = 0 → ∀ ch ∈ chunkl c l, ch.length = c := by
  have H : ∀ (n : Nat) (l : List α), l.length ≤ n → l.length % c = 0 →
      ∀ ch ∈ chunkl c l, ch.length = c := by
    intro n
    induction n with
    | zero =>
        intro l h _ ch hch
        have : l = [] := List.length_eq_zero.mp (Nat.le_zero.mp h)
        rw [this, chunkl_nil] at hch
        simp at hch
    | succ m ih =>
        intro l h hmod ch hch
        by_cases hnil : l = []
        · rw [hnil, chunkl_nil] at hch
          simp at hch
        · have hpos : 0 < l.length := List.length_pos.mpr hnil
          have hcle : c ≤ l.length :=
            Nat.le_of_dvd hpos (Nat.dvd_of_mod_eq_zero hmod)
          rw [chunkl_step c l hnil hc] at hch
          rcases List.mem_cons.mp hch with hch | hch
          · rw [hch, List.length_take]
            omega
          · refine ih (l.drop c) (by simp [List.length_drop]; omega) ?_ ch hch
            rw [List.length_drop]
            have hdvd : c ∣ l.length := Nat.dvd_of_mod_eq_zero hmod
            have : c ∣ l.length - c := Nat.dvd_sub' hdvd dvd_rfl
            exact Nat.mod_eq_zero_of_dvd this
  exact fun l => H l.length l le_rfl

theorem bitsToSymbols_length_aligned (bits : List Bool)
    (h : bits.length % 8 = 0) :
    8 * (bitsToSymbols bits).length = bits.length := by
  conv_rhs => rw [← symbolsToBits_bitsToSymbols bits h]
  rw [symbolsToBits_length]

/-- With byte-and-chunk-aligned input the encode loop is exactly
chunk-by-chunk codeword generation. -/
theorem rsEncodeLoop_aligned (n k : Nat) (hk : k ≠ 0) :
    ∀ syms : List GF, syms.length % k = 0 →
      rsEncodeLoop n k syms = (chunkl k syms).map (coderEncode n k) := by
  have H : ∀ (m : Nat) (syms : List GF), syms.length ≤ m →
      syms.length % k = 0 →
      rsEncodeLoop n k syms = (chunkl k syms).map (coderEncode n k) := by
    intro m
    induction m with
    | zero =>
        intro syms h _
        have : syms = [] := List.length_eq_zero.mp (Nat.le_zero.mp h)
        simp [this, rsEncodeLoop, chunkl_nil]
    | succ m2 ih =>
        intro syms h hmod
        cases syms with
        | nil => simp [rsEncodeLoop, chunkl_nil]
        | cons s rest =>
            have hpos : 0 < (s :: rest).length := by simp
            have hcle : k ≤ (s :: rest).length :=
              Nat.le_of_dvd hpos (Nat.dvd_of_mod_eq_zero hmod)
            have hnotlt : ¬(s :: rest).length < k := by omega
            rw [show rsEncodeLoop n k (s :: rest)
                  = (if k = 0 then []
                     else
                      (if (s :: rest).length < k
                       then coderEncode n k ((s :: rest)
                          ++ List.replicate (k - (s :: rest).length) (0 : GF))
                       else coderEncode n k ((s :: rest).take k))
                        :: rsEncodeLoop n k ((s :: rest).drop k))
                  from by rw [rsEncodeLoop],
                if_neg hk, if_neg hnotlt,
                chunkl_step k (s :: rest) (by simp) hk, List.map_cons]
            congr 1
            have hdvd : k ∣ (s :: rest).length := Nat.dvd_of_mod_eq_zero hmod
            have hdvd2 : k ∣ (s :: rest).length - k := Nat.dvd_sub' hdvd dvd_rfl
            refine ih _ ?_ ?_
            · simp only [List.length_drop]
              simp only [List.length_cons] at h ⊢
              omega
            · rw [List.length_drop]
              exact Nat.mod_eq_zero_of_dvd hdvd2
  exact fun syms => H syms.length syms le_rfl

theorem symbolsToBits_flatten :
    ∀ ll : List (List GF),
      symbolsToBits ll.flatten = (ll.map symbolsToBits).flatten := by
  intro ll
  induction ll with
  | nil => rfl
  | cons chunk rest ih =>
      rw [List.flatten_cons, symbolsToBits_append, ih, List.map_cons,
          List.flatten_cons]

theorem chunkl_length_le (c : Nat) :
    ∀ l : List α, ∀ ch ∈ chunkl c l, ch.length ≤ c := by
  have H : ∀ (n : Nat) (l : List α), l.length ≤ n →
      ∀ ch ∈ chunkl c l, ch.length ≤ c := by
    intro n
    induction n with
    | zero =>
        intro l h ch hch
        have : l = [] := List.length_eq_zero.mp (Nat.le_zero.mp h)
        rw [this, chunkl_nil] at hch
        simp at hch
    | succ m ih =>
        intro l h ch hch
        by_cases hnil : l = []
        · rw [hnil, chunkl_nil] at hch
          simp at hch
        · by_cases hc : c = 0
          · cases l with
            | nil => exact absurd rfl hnil
            | cons x xs =>
                rw [show chunkl c (x :: xs) = (if c = 0 then []
                    else (x :: xs).take c :: chunkl c ((x :: xs).drop c))
                    from by rw [chunkl], if_pos hc] at hch
                simp at hch
          · have hpos : 0 < l.length := List.length_pos.mpr hnil
            rw [chunkl_step c l hnil hc] at hch
            rcases List.mem_cons.mp hch with hch | hch
            · rw [hch, List.length_take]
              omega
            · exact ih (l.drop c) (by simp [List.length_drop]; omega) ch hch
  exact fun l => H l.length l le_rfl

theorem chunkl_count (c : Nat) (hc : c ≠ 0) :
    ∀ l : List α, l.length % c = 0 →
      (chunkl c l).length = l.length / c := by
  have H : ∀ (n : Nat) (l : List α), l.length ≤ n → l.length % c = 0 →
      (chunkl c l).length = l.length / c := by
    intro n
    induction n with
    | zero =>
        intro l h _
        have : l = [] := List.length_eq_zero.mp (Nat.le_zero.mp h)
        simp [this, chunkl_nil]
    | succ m ih =>
        intro l h hmod
        by_cases hnil : l = []
        · simp [hnil, chunkl_nil]
        · have hpos : 0 < l.length := List.length_pos.mpr hnil
          have hcle : c ≤ l.length :=
            Nat.le_of_dvd hpos (Nat.dvd_of_mod_eq_zero hmod)
          have hdvd : c ∣ l.length := Nat.dvd_of_mod_eq_zero hmod
          rw [chunkl_step c l hnil hc, List.length_cons,
              ih (l.drop c) (by simp [List.length_drop]; omega)
                (by rw [List.length_drop]
                    exact Nat.mod_eq_zero_of_dvd (Nat.dvd_sub' hdvd dvd_rfl)),
              List.length_drop]
          obtain ⟨q, hq⟩ := hdvd
          cases q with
          | zero =>
              rw [Nat.mul_zero] at hq
              omega
          | succ p =>
              rw [hq, Nat.mul_succ,
                  show c * p + c - c = c * p from by omega,
                  Nat.mul_div_cancel_left p (by omega),
                  show c * p + c = c * (p + 1) from by rw [Nat.mul_succ],
                  Nat.mul_div_cancel_left (p + 1) (by omega)]
  exact fun l => H l.length l le_rfl

/-- The parity symbols of one chunk (wire order): the remainder of the
shifted message polynomial modulo the generator polynomial, zero-padded to
`n - k` symbols. -/
def rsParity (n k : Nat) (msg : List GF) : List GF :=
  (polyMod (genPoly (n - k)) (List.replicate (n - k) (0 : GF) ++ msg.reverse)
    ++ List.replicate ((n - k) - (polyMod (genPoly (n - k))
      (List.replicate (n - k) (0 : GF) ++ msg.reverse)).length)
      (0 : GF)).reverse

theorem coderEncode_eq_data_parity (n k : Nat) (msg : List GF) :
    coderEncode n k msg = msg ++ rsParity n k msg := rfl

theorem rsParity_length (n k : Nat) (msg : List GF) :
    (rsParity n k msg).length = n - k :=
  coderEncode_parity_length n k msg

/-- The data chunks of the encode loop: groups of `k` symbols, the final
one zero-padded on the right. -/
def paddedChunks (k : Nat) (syms : List GF) : List (List GF) :=
  (chunkl k syms).map
    (fun ch => ch ++ List.replicate (k - ch.length) (0 : GF))

theorem paddedChunks_length_mem (k : Nat) (syms : List GF)
    (ch : List GF) (hch : ch ∈ paddedChunks k syms) : ch.length = k := by
  rw [paddedChunks, List.mem_map] at hch
  obtain ⟨raw, hraw, hch⟩ := hch
  have := chunkl_length_le k syms raw hraw
  rw [← hch, List.length_append, List.length_replicate]
  omega

/-- The encode loop is padded-chunk-by-chunk codeword generation. -/
theorem rsEncodeLoop_padded (n k : Nat) (hk : k ≠ 0) :
    ∀ syms : List GF,
      rsEncodeLoop n k syms = (paddedChunks k syms).map (coderEncode n k) := by
  have H : ∀ (m : Nat) (syms : List GF), syms.length ≤ m →
      rsEncodeLoop n k syms = (paddedChunks k syms).map (coderEncode n k) := by
    intro m
    induction m with
    | zero =>
        intro syms h
        have : syms = [] := List.length_eq_zero.mp (Nat.le_zero.mp h)
        simp [this, rsEncodeLoop, paddedChunks, chunkl_nil]
    | succ m2 ih =>
        intro syms h
        cases syms with
        | nil => simp [rsEncodeLoop, paddedChunks, chunkl_nil]
        | cons s rest =>
            rw [show rsEncodeLoop n k (s :: rest)
                  = (if k = 0 then []
                     else
                      (if (s :: rest).length < k
                       then coderEncode n k ((s :: rest)
                          ++ List.replicate (k - (s :: rest).length) (0 : GF))
                       else coderEncode n k ((s :: rest).take k))
                        :: rsEncodeLoop n k ((s :: rest).drop k))
                  from by rw [rsEncodeLoop],
                if_neg hk, paddedChunks,
                chunkl_step k (s :: rest) (by simp) hk, List.map_cons,
                List.map_cons]
            by_cases hlt : (s :: rest).length < k
            · rw [if_pos hlt]
              have htake : (s :: rest).take k = s :: rest :=
                List.take_of_length_le (by omega)
              have hdrop : (s :: rest).drop k = [] :=
                List.drop_eq_nil_of_le (by omega)
              rw [htake, hdrop, chunkl_nil]
              simp [rsEncodeLoop]
            · rw [if_neg hlt]
              have hklen : ((s :: rest).take k).length = k := by
                rw [List.length_take]
                omega
              rw [ih ((s :: rest).drop k)
                    (by simp only [List.length_drop, List.length_cons] at h ⊢
                        omega),
                  paddedChunks, hklen,
                  show k - k = 0 from by omega, List.replicate_zero,
                  List.append_nil]
  exact fun syms => H syms.length syms le_rfl

theorem flatten_length_of_blocks (B : Nat) :
    ∀ blocks : List (List α), (∀ b ∈ blocks, b.length = B) →
      blocks.flatten.length = blocks.length * B := by
  intro blocks
  induction blocks with
  | nil => intro _; simp
  | cons b bs ih =>
      intro h
      rw [List.flatten_cons, List.length_append, h b (by simp),
          ih (fun x hx => h x (by simp [hx])), List.length_cons]
      ring

/-- The encoded codewords of aligned input decode back to their chunks
and the glued-together recovered bits are the original bitstring. -/
theorem rsDecode_rsEncode_aligned (n k : Nat) (hk : 0 < k) (hkn : k < n)
    (x : List Bool) (hx : x.length % (k * 8) = 0) :
    rsDecode n k (rsEncode n k x) = (x, true) := by
  have hdvd : (k * 8) ∣ x.length := Nat.dvd_of_mod_eq_zero hx
  have h8 : x.length % 8 = 0 :=
    Nat.mod_eq_zero_of_dvd (dvd_trans ⟨k, by ring⟩ hdvd)
  obtain ⟨mm, hmm⟩ := hdvd
  have hsl : 8 * (bitsToSymbols x).length = x.length :=
    bitsToSymbols_length_aligned x h8
  have hsym_len : (bitsToSymbols x).length = k * mm := by
    have h2 : 8 * (bitsToSymbols x).length = 8 * (k * mm) := by
      rw [hsl, hmm]
      ring
    exact Nat.eq_of_mul_eq_mul_left (by norm_num) h2
  have hsmod : (bitsToSymbols x).length % k = 0 :=
    Nat.mod_eq_zero_of_dvd ⟨mm, hsym_len⟩
  have hkne : k ≠ 0 := by omega
  have hchunklen : ∀ ch ∈ chunkl k (bitsToSymbols x), ch.length = k :=
    chunkl_length_mem k hkne _ hsmod
  have hblock : ∀ b ∈ ((chunkl k (bitsToSymbols x)).map
      (coderEncode n k)).map symbolsToBits, b.length = n * 8 := by
    intro b hb
    rw [List.mem_map] at hb
    obtain ⟨cw, hcw, hb⟩ := hb
    rw [List.mem_map] at hcw
    obtain ⟨ch, hch, hcw⟩ := hcw
    rw [← hb, symbolsToBits_length, ← hcw,
        coderEncode_length n k (by omega) ch (hchunklen ch hch)]
    ring
  rw [rsEncode, rsEncodeLoop_aligned n k hkne _ hsmod, rsDecode_eq]
  have hred : bitstring_to_codewords n
      ((((chunkl k (bitsToSymbols x)).map (coderEncode n k)).map
        symbolsToBits).flatten)
      = (chunkl k (bitsToSymbols x)).map (coderEncode n k) := by
    rw [bitstring_to_codewords,
        chunkl_flatten_of_blocks (n * 8) (by omega) _ hblock, List.map_map,
        show (bitsToSymbols ∘ symbolsToBits) = @id (List GF) from
          funext bitsToSymbols_symbolsToBits,
        List.map_id]
  rw [hred]
  have hflag : ((chunkl k (bitsToSymbols x)).map (coderEncode n k)).all
      (rsChunkOk n k) = true := by
    rw [List.all_eq_true]
    intro cw hcw
    rw [List.mem_map] at hcw
    obtain ⟨ch, hch, hcw⟩ := hcw
    rw [← hcw, rsChunkOk,
        coderDecode_coderEncode n k (by omega) ch (hchunklen ch hch)]
  have hbits : (((chunkl k (bitsToSymbols x)).map (coderEncode n k)).map
      (rsRecoverChunk n k)).flatten = x := by
    have hmapeq : ((chunkl k (bitsToSymbols x)).map (coderEncode n k)).map
        (rsRecoverChunk n k)
        = (chunkl k (bitsToSymbols x)).map symbolsToBits := by
      rw [List.map_map]
      apply List.map_congr_left
      intro ch hch
      show rsRecoverChunk n k (coderEncode n k ch) = symbolsToBits ch
      rw [rsRecoverChunk,
          coderDecode_coderEncode n k (by omega) ch (hchunklen ch hch)]
    rw [hmapeq, ← symbolsToBits_flatten, flatten_chunkl k hkne,
        symbolsToBits_bitsToSymbols x h8]
  rw [hbits, hflag]

/-! ## Python inputs for the Viterbi decoder

`Viterbi.decode` takes either a Python `str` (hard decoding) or a Python
`list` of floats (soft decoding) and type-checks it at entry (src lines
194-203).  The embedding models a character as `'0'`, `'1'`, or some other
character that `float()` cannot parse, and a list element as a float or a
value of any other type. -/

/-- A character of a Python input string. -/
inductive PyChar where
  | c0 : PyChar
  | c1 : PyChar
  | cBad : PyChar
deriving DecidableEq

/-- An element of a Python input list. -/
inductive PyElem where
  | pfloat : Rat → PyElem
  | pnonfloat : PyElem
deriving DecidableEq

/-- A Python value passed to `decode`. -/
inductive PyInput where
  | pstr : List PyChar → PyInput
  | plist : List PyElem → PyInput
  | pother : PyInput
deriving DecidableEq

/-- The `ValueError`s raised by `Viterbi.decode` and
`ConcatenatedViterbiRS.decode` (src lines 194-203 and 284-291), plus the
`ValueError` that `float()` raises on an unparsable character. -/
inductive PyErr where
  | notAList : PyErr
  | notAllFloats : PyErr
  | notAString : PyErr
  | badFloatChar : PyErr
deriving DecidableEq

/-- The bitstring characters, as a Python string. -/
def bitsToChars (bits : List Bool) : List PyChar :=
  bits.map (fun b => if b then PyChar.c1 else PyChar.c0)

/-- `[float(i) for i in input]` (src line 203) on the character level:
`'0'`/`'1'` parse to 0.0/1.0 (kept as the bit itself here), any other
character raises `ValueError`. -/
def charsToBits : List PyChar → Except PyErr (List Bool)
  | [] => Except.ok []
  | PyChar.c0 :: rest => (charsToBits rest).map (fun l => false :: l)
  | PyChar.c1 :: rest => (charsToBits rest).map (fun l => true :: l)
  | PyChar.cBad :: _ => Except.error PyErr.badFloatChar

theorem charsToBits_bitsToChars (bits : List Bool) :
    charsToBits (bitsToChars bits) = Except.ok bits := by
  induction bits with
  | nil => rfl
  | cons b rest ih =>
      cases b <;> simp [bitsToChars, charsToBits] at ih ⊢ <;>
        simp [ih, Except.map]

/-! ## Convolutional encoder and Viterbi trellis decoder

Modelled from the spec (sections 4.3 and 4.4) and standing in for the
`viterbi` module (`stream_encoder`, `Decoder`, `bit_encoder_K2`,
`bit_encoder_K5`) that the repository imports but does not vendor.  The
encoder state is the shift register's previous `k - 1` bits, newest
first; each input bit emits two output bits, the xors of the tapped
register bits under two generator polynomials (presets for the supported
constraint lengths k = 2 and k = 5, both with the newest bit tapped). -/

/-- Configuration of the convolutional code: constraint length and the
two generator tap vectors (newest bit first). -/
structure VitParams where
  k : Nat
  g0 : List Bool
  g1 : List Bool

/-- The k = 2 preset (taps 11 and 10). -/
def vitK2 : VitParams := ⟨2, [true, true], [true, false]⟩

/-- The k = 5 preset (the standard octal 23/35 pair). -/
def vitK5 : VitParams :=
  ⟨5, [true, false, false, true, true], [true, true, true, false, true]⟩

/-- Well-formedness of a configuration: constraint length at least two,
tap vectors of length `k`, and the newest bit tapped by the first
generator (true of both presets). -/
def goodParams (P : VitParams) : Prop :=
  2 ≤ P.k ∧ P.g0.length = P.k ∧ P.g1.length = P.k ∧ P.g0.head? = some true

/-- Xor of the register bits selected by a tap vector. -/
def tapXor (g r : List Bool) : Bool :=
  (List.zipWith and g r).foldr xor false

/-- The two output bits emitted when bit `b` is shifted into state `s`. -/
def encPair (P : VitParams) (s : List Bool) (b : Bool) : Bool × Bool :=
  (tapXor P.g0 (b :: s), tapXor P.g1 (b :: s))

/-- The all-zero initial state. -/
def initState (P : VitParams) : List Bool :=
  List.replicate (P.k - 1) false

/-- Shifting bit `b` into state `s`. -/
def nextState (P : VitParams) (s : List Bool) (b : Bool) : List Bool :=
  (b :: s).take (P.k - 1)

/-- `stream_encoder` from a given state: the stream of output pairs. -/
def encodeFrom (P : VitParams) : List Bool → List Bool → List (Bool × Bool)
  | _, [] => []
  | s, b :: bs => encPair P s b :: encodeFrom P (nextState P s b) bs

/-- `Viterbi.encode` (src lines 158-176): run the stream encoder from the
all-zero state and flatten the output pairs into a bitstring. -/
def vitEncode (P : VitParams) (bits : List Bool) : List Bool :=
  ((encodeFrom P (initState P) bits).map (fun pr => [pr.1, pr.2])).flatten

/-- The state reached after feeding a bit list from the all-zero state. -/
def stState (P : VitParams) (bits : List Bool) : List Bool :=
  bits.foldl (nextState P) (initState P)

/-- All states of the trellis (all bit lists of length `m`), in the fixed
enumeration order that also decides tie-breaks. -/
def allStates : Nat → List (List Bool)
  | 0 => [[]]
  | m + 1 => (allStates m).flatMap
      (fun s => [false :: s, true :: s])

/-- A trellis cell: unreachable, or the best accumulated metric together
with the decoded bits of its surviving path (newest first). -/
def Cell : Type := Option (Nat × List Bool)

/-- Compare an accumulated best cell against the next candidate: keep
the reachable one, or on two reachable cells the strictly smaller metric
(ties keep the earlier candidate, the documented deterministic
tie-break). -/
def cbStep (best c : Cell) : Cell :=
  match best, c with
  | none, c => c
  | some bc, none => some bc
  | some bc, some cc => if cc.1 < bc.1 then some cc else some bc

/-- Pick the first minimum-metric candidate. -/
def chooseBest (l : List Cell) : Cell :=
  l.foldl cbStep none

/-- Hamming distance of two output pairs. -/
def hamming2 (x y : Bool × Bool) : Nat :=
  (if x.1 = y.1 then 0 else 1) + (if x.2 = y.2 then 0 else 1)

/-- The predecessor/input-bit transitions, in enumeration order. -/
def transitions (P : VitParams) : List (List Bool × Bool) :=
  (allStates (P.k - 1)).flatMap (fun s => [(s, false), (s, true)])

/-- Association-list lookup of a trellis column. -/
def tlookup (T : List (List Bool × Cell)) (s : List Bool) : Cell :=
  match T.find? (fun e => e.1 = s) with
  | some e => e.2
  | none => none

/-- The candidate cells entering `dest` at one stage, one per transition
(in enumeration order): unreachable predecessors contribute an empty
cell, reachable ones the accumulated metric extended by the branch
metric (hard decision: Hamming distance between the expected and the
observed pair) and the surviving path extended by the input bit. -/
def candFor (P : VitParams) (obs : Bool × Bool)
    (T : List (List Bool × Cell)) (dest : List Bool) : List Cell :=
  (transitions P).filterMap
    (fun tr =>
      if nextState P tr.1 tr.2 = dest then
        some ((tlookup T tr.1).map
          (fun mc => (mc.1 + hamming2 (encPair P tr.1 tr.2) obs,
                      tr.2 :: mc.2)))
      else none)

/-- One trellis stage (hard decision): for every destination state keep
the best incoming candidate. -/
def vstep (P : VitParams) (T : List (List Bool × Cell)) (obs : Bool × Bool) :
    List (List Bool × Cell) :=
  (allStates (P.k - 1)).map (fun dest => (dest, chooseBest (candFor P obs T dest)))

/-- Stage 0: the all-zero state has metric 0, all others are unreachable. -/
def initTrellis (P : VitParams) : List (List Bool × Cell) :=
  (allStates (P.k - 1)).map
    (fun s => (s, if s = initState P then some (0, []) else none))

/-- The hard-decision Viterbi `Decoder` (modelled from the spec, section
4.4): accumulate path metrics over all stages, then trace the survivor
path back from the best final state. -/
def vitDecoderHard (P : VitParams) (stream : List (Bool × Bool)) :
    List Bool :=
  let final := stream.foldl (vstep P) (initTrellis P)
  match chooseBest (final.map (fun e => e.2)) with
  | some mc => mc.2.reverse
  | none => []

/-- A soft trellis cell: rational path metric plus survivor path. -/
def CellQ : Type := Option (Rat × List Bool)

/-- Soft-metric analogue of `cbStep`. -/
def cbStepQ (best c : CellQ) : CellQ :=
  match best, c with
  | none, c => c
  | some bc, none => some bc
  | some bc, some cc => if cc.1 < bc.1 then some cc else some bc

/-- First-minimum selection for soft metrics. -/
def chooseBestQ (l : List CellQ) : CellQ :=
  l.foldl cbStepQ none

/-- The channel value an encoder output bit is expected to produce under
the soft-decision sign convention (positive means 0, negative means 1). -/
def softExpected (b : Bool) : Rat := if b then -1 else 1

/-- Euclidean-style soft branch metric between the expected output pair
and the observed pair of channel values. -/
def softMetric (e : Bool × Bool) (obs : Rat × Rat) : Rat :=
  (obs.1 - softExpected e.1) ^ 2 + (obs.2 - softExpected e.2) ^ 2

/-- Association-list lookup of a soft trellis column. -/
def tlookupQ (T : List (List Bool × CellQ)) (s : List Bool) : CellQ :=
  match T.find? (fun e => e.1 = s) with
  | some e => e.2
  | none => none

/-- The soft-decision candidates entering `dest` at one stage. -/
def candForQ (P : VitParams) (obs : Rat × Rat)
    (T : List (List Bool × CellQ)) (dest : List Bool) : List CellQ :=
  (transitions P).filterMap
    (fun tr =>
      if nextState P tr.1 tr.2 = dest then
        some (Option.map
          (fun (mc : Rat × List Bool) =>
            (mc.1 + softMetric (encPair P tr.1 tr.2) obs, tr.2 :: mc.2))
          (tlookupQ T tr.1))
      else none)

/-- One soft-decision trellis stage. -/
def vstepQ (P : VitParams) (T : List (List Bool × CellQ))
    (obs : Rat × Rat) : List (List Bool × CellQ) :=
  (allStates (P.k - 1)).map
    (fun dest => (dest, chooseBestQ (candForQ P obs T dest)))

/-- Stage 0 of the soft trellis. -/
def initTrellisQ (P : VitParams) : List (List Bool × CellQ) :=
  (allStates (P.k - 1)).map
    (fun s => (s, if s = initState P then some ((0 : Rat), []) else none))

/-- The soft-decision Viterbi `Decoder` (modelled from the spec, section
4.4). -/
def vitDecoderSoft (P : VitParams) (stream : List (Rat × Rat)) :
    List Bool :=
  let final := stream.foldl (vstepQ P) (initTrellisQ P)
  match chooseBestQ (final.map (fun e => e.2)) with
  | some mc => mc.2.reverse
  | none => []

/-- Pair up consecutive stream values (src lines 209-210). -/
def pairUp : List α → List (α × α)
  | a :: b :: rest => (a, b) :: pairUp rest
  | _ => []

/-- The body of `Viterbi.decode` after input conversion, hard mode (src
lines 204-222): the length guard, the trellis search, and the degraded
all-zeros output of length `len(input) - k` when the guard fails. -/
def vitDecodeCoreHard (P : VitParams) (bits : List Bool) :
    List Bool × Bool :=
  if bits.length % 2 ≠ 0 ∨ bits.length < P.k then
    (List.replicate (bits.length - P.k) false, false)
  else
    (vitDecoderHard P (pairUp bits), true)

/-- The body of `Viterbi.decode`, soft mode. -/
def vitDecodeCoreSoft (P : VitParams) (qs : List Rat) :
    List Bool × Bool :=
  if qs.length % 2 ≠ 0 ∨ qs.length < P.k then
    (List.replicate (qs.length - P.k) false, false)
  else
    (vitDecoderSoft P (pairUp qs), true)

/-- Whether a Python list element is a float. -/
def isFloatElem : PyElem → Bool
  | PyElem.pfloat _ => true
  | PyElem.pnonfloat => false

/-- The entry type validation of `Viterbi.decode` (src lines 194-201) and
`ConcatenatedViterbiRS.decode` (src lines 284-291), which duplicate the
same checks: soft mode requires a list of floats, hard mode a string. -/
def decodeValidate (soft : Bool) (input : PyInput) : Except PyErr Unit :=
  if soft then
    match input with
    | PyInput.plist l =>
        if l.all isFloatElem
        then Except.ok () else Except.error PyErr.notAllFloats
    | _ => Except.error PyErr.notAList
  else
    match input with
    | PyInput.pstr _ => Except.ok ()
    | _ => Except.error PyErr.notAString

/-- The float values of a validated list. -/
def floatsOf (l : List PyElem) : List Rat :=
  l.filterMap (fun e => match e with
    | PyElem.pfloat q => some q
    | PyElem.pnonfloat => none)

/-- `Viterbi.decode` (src lines 178-222): validate the input type for the
configured mode, convert a string input with `float()` (which itself can
raise on unparsable characters), then run the guarded trellis search. -/
def viterbiDecode (P : VitParams) (soft : Bool) (input : PyInput) :
    Except PyErr (List Bool × Bool) :=
  (decodeValidate soft input).bind (fun _ =>
    match input with
    | PyInput.pstr s => (charsToBits s).map (vitDecodeCoreHard P)
    | PyInput.plist l => Except.ok (vitDecodeCoreSoft P (floatsOf l))
    | PyInput.pother => Except.error PyErr.notAString)

/-! ## The ConcatenatedViterbiRS wrapper class (src/error_correctors.py) -/

/-- Configuration of the concatenated codec: the inner convolutional code
(constructed from `v_k`), the outer Reed-Solomon `(n, rs_k)` code, and the
decoding mode. -/
structure ConcatParams where
  P : VitParams
  n : Nat
  rsk : Nat
  soft : Bool

/-- `ConcatenatedViterbiRS.encode` (src lines 245-262): Reed-Solomon
encode, then Viterbi encode; note the code returns only this one value
(its docstring promises the pair `(final_encoded, rs_encoded)`). -/
def concatEncode (cp : ConcatParams) (bits : List Bool) : List Bool :=
  vitEncode cp.P (rsEncode cp.n cp.rsk bits)

/-- `ConcatenatedViterbiRS.decode` (src lines 264-295): re-run the same
input validation, Viterbi-decode, Reed-Solomon-decode the result, and
and-combine the two correctability flags. -/
def concatDecode (cp : ConcatParams) (input : PyInput) :
    Except PyErr (List Bool × Bool) :=
  (decodeValidate cp.soft input).bind (fun _ =>
    (viterbiDecode cp.P cp.soft input).map
      (fun vr =>
        ((rsDecode cp.n cp.rsk vr.1).1,
         vr.2 && (rsDecode cp.n cp.rsk vr.1).2)))

/-- The observed length of a decoder input (characters of a string,
elements of a list). -/
def obsLen : PyInput → Nat
  | PyInput.pstr s => s.length
  | PyInput.plist l => l.length
  | PyInput.pother => 0

/-! ## Correctness of the hard-decision trellis search on noiseless input -/

/-- A cell that cannot win against the true path: unreachable or with
metric at least one. -/
def cellGE1 (c : Cell) : Prop :=
  c = none ∨ ∃ m p, c = some (m, p) ∧ 1 ≤ m

theorem mem_allStates : ∀ (m : Nat) (s : List Bool),
    s ∈ allStates m ↔ s.length = m := by
  intro m
  induction m with
  | zero =>
      intro s
      simp [allStates, List.length_eq_zero]
  | succ mm ih =>
      intro s
      simp only [allStates, List.mem_flatMap]
      constructor
      · rintro ⟨t, ht, hs⟩
        have hlt := (ih t).mp ht
        simp only [List.mem_cons, List.mem_singleton,
          List.not_mem_nil, or_false] at hs
        rcases hs with hs | hs <;> rw [hs] <;> simp [hlt]
      · intro h
        cases s with
        | nil => simp at h
        | cons b tail =>
            refine ⟨tail, (ih tail).mpr (by simpa using h), ?_⟩
            cases b <;> simp

theorem foldl_nextState_length (P : VitParams) :
    ∀ (xs : List Bool) (s : List Bool), s.length = P.k - 1 →
      (xs.foldl (nextState P) s).length = P.k - 1 := by
  intro xs
  induction xs with
  | nil => intro s hs; exact hs
  | cons b bs ih =>
      intro s hs
      rw [List.foldl_cons]
      refine ih _ ?_
      rw [nextState, List.length_take, List.length_cons, hs]
      omega

theorem stState_length (P : VitParams) (xs : List Bool) :
    (stState P xs).length = P.k - 1 :=
  foldl_nextState_length P xs _ (by simp [initState])

theorem stState_mem (P : VitParams) (xs : List Bool) :
    stState P xs ∈ allStates (P.k - 1) :=
  (mem_allStates _ _).mpr (stState_length P xs)

theorem nextState_length (P : VitParams) (s : List Bool) (b : Bool)
    (hs : s.length = P.k - 1) : (nextState P s b).length = P.k - 1 := by
  rw [nextState, List.length_take, List.length_cons, hs]
  omega

theorem stState_snoc (P : VitParams) (xs : List Bool) (b : Bool) :
    stState P (xs ++ [b]) = nextState P (stState P xs) b := by
  rw [stState, List.foldl_append]
  rfl

theorem nextState_head (P : VitParams) (hk : 2 ≤ P.k)
    (s : List Bool) (b : Bool) : (nextState P s b).head? = some b := by
  rw [nextState]
  rcases Nat.exists_eq_add_of_le (show 1 ≤ P.k - 1 from by omega)
    with ⟨m, hm⟩
  rw [hm, Nat.add_comm, List.take_succ_cons]
  rfl

theorem nextState_bit_eq (P : VitParams) (hk : 2 ≤ P.k)
    (s : List Bool) (b b2 : Bool)
    (h : nextState P s b = nextState P s b2) : b = b2 := by
  have h1 := nextState_head P hk s b
  have h2 := nextState_head P hk s b2
  rw [h, h2] at h1
  exact (Option.some.injEq _ _ ▸ h1 : b2 = b).symm

theorem tapXor_cons (gh : Bool) (gt : List Bool) (b : Bool)
    (s : List Bool) :
    tapXor (gh :: gt) (b :: s) = xor (gh && b) (tapXor gt s) := rfl

theorem encPair_ne (P : VitParams) (hg : goodParams P) (s : List Bool) :
    encPair P s false ≠ encPair P s true := by
  obtain ⟨hk, h0, h1, hhead⟩ := hg
  cases hg0 : P.g0 with
  | nil => rw [hg0] at hhead; simp at hhead
  | cons gh gt =>
      rw [hg0] at hhead
      simp only [List.head?_cons, Option.some.injEq] at hhead
      intro hc
      have := congrArg Prod.fst hc
      simp only [encPair, hg0, hhead, tapXor_cons] at this
      revert this
      cases tapXor gt s <;> simp

theorem hamming2_self (p : Bool × Bool) : hamming2 p p = 0 := by
  simp [hamming2]

theorem hamming2_pos (p q : Bool × Bool) (h : p ≠ q) : 1 ≤ hamming2 p q := by
  rcases p with ⟨p1, p2⟩
  rcases q with ⟨q1, q2⟩
  simp only [hamming2]
  by_cases h1 : p1 = q1
  · by_cases h2 : p2 = q2
    · exact absurd (by rw [h1, h2]) h
    · rw [if_pos h1, if_neg h2]
  · rw [if_neg h1]
    omega

theorem mem_transitions (P : VitParams) (s : List Bool) (b : Bool) :
    (s, b) ∈ transitions P ↔ s ∈ allStates (P.k - 1) := by
  simp only [transitions, List.mem_flatMap]
  constructor
  · rintro ⟨t, ht, hmem⟩
    simp only [List.mem_cons, List.mem_singleton, List.not_mem_nil,
      or_false, Prod.mk.injEq] at hmem
    rcases hmem with ⟨h1, _⟩ | ⟨h1, _⟩ <;> rw [← h1] at ht <;> exact ht
  · intro h
    refine ⟨s, h, ?_⟩
    cases b <;> simp

theorem tlookup_map (f : List Bool → Cell) :
    ∀ (l : List (List Bool)) (s : List Bool), s ∈ l →
      tlookup (l.map (fun t => (t, f t))) s = f s := by
  intro l
  induction l with
  | nil => intro s hs; simp at hs
  | cons t rest ih =>
      intro s hs
      by_cases hts : t = s
      · rw [tlookup, List.map_cons, List.find?_cons]
        have : (decide ((t, f t).1 = s)) = true := by simp [hts]
        rw [this]
        simp [hts]
      · rw [tlookup, List.map_cons, List.find?_cons]
        have : (decide ((t, f t).1 = s)) = false := by simp [hts]
        rw [this]
        rcases List.mem_cons.mp hs with hs2 | hs2
        · exact absurd hs2.symm hts
        · exact ih s hs2

theorem tlookup_vstep (P : VitParams) (T : List (List Bool × Cell))
    (obs : Bool × Bool) (dest : List Bool)
    (hdest : dest ∈ allStates (P.k - 1)) :
    tlookup (vstep P T obs) dest = chooseBest (candFor P obs T dest) :=
  tlookup_map (fun d => chooseBest (candFor P obs T d)) _ dest hdest

theorem tlookup_init (P : VitParams) (s : List Bool)
    (hs : s ∈ allStates (P.k - 1)) :
    tlookup (initTrellis P) s
      = if s = initState P then some (0, []) else none :=
  tlookup_map (fun t => if t = initState P then some (0, []) else none)
    _ s hs

theorem chooseBest_step_ge1 (acc c : Cell) (hacc : cellGE1 acc)
    (hc : cellGE1 c) : cellGE1 (cbStep acc c) := by
  rw [cbStep.eq_def]
  rcases hacc with hacc | ⟨m, p, hacc, hm⟩ <;>
    rcases hc with hc | ⟨m2, p2, hc, hm2⟩ <;> subst hacc <;> subst hc
  · exact Or.inl rfl
  · exact Or.inr ⟨m2, p2, rfl, hm2⟩
  · exact Or.inr ⟨m, p, rfl, hm⟩
  · dsimp only
    split
    · exact Or.inr ⟨m2, p2, rfl, hm2⟩
    · exact Or.inr ⟨m, p, rfl, hm⟩

theorem chooseBest_ge1 :
    ∀ (l : List Cell) (acc : Cell), cellGE1 acc →
      (∀ c ∈ l, cellGE1 c) →
      cellGE1 (l.foldl cbStep acc) := by
  intro l
  induction l with
  | nil => intro acc hacc _; exact hacc
  | cons c rest ih =>
      intro acc hacc hl
      rw [List.foldl_cons]
      exact ih _ (chooseBest_step_ge1 acc c hacc (hl c (by simp)))
        (fun x hx => hl x (by simp [hx]))

theorem chooseBest_all_ge1 (l : List Cell) (h : ∀ c ∈ l, cellGE1 c) :
    cellGE1 (chooseBest l) :=
  chooseBest_ge1 l none (Or.inl rfl) h

theorem chooseBest_zero :
    ∀ (l : List Cell) (acc : Cell) (p : List Bool),
      (∀ c ∈ l, c = some (0, p) ∨ cellGE1 c) →
      ((some (0, p) ∈ l ∧ cellGE1 acc) ∨ acc = some (0, p)) →
      l.foldl cbStep acc = some (0, p) := by
  intro l
  induction l with
  | nil =>
      intro acc p _ hcase
      rcases hcase with ⟨hmem, _⟩ | hacc
      · simp at hmem
      · exact hacc
  | cons c rest ih =>
      intro acc p hl hcase
      rw [List.foldl_cons]
      rcases hcase with ⟨hmem, hacc⟩ | hacc
      · by_cases hc : c = some (0, p)
        · subst hc
          refine ih _ p (fun x hx => hl x (by simp [hx])) (Or.inr ?_)
          rcases hacc with hacc | ⟨m, q, hacc, hm⟩ <;> subst hacc
          · rfl
          · rw [cbStep.eq_def]
            dsimp only
            rw [if_pos (by omega)]
        · have hcg : cellGE1 c := by
            rcases hl c (by simp) with h | h
            · exact absurd h hc
            · exact h
          have hmem2 : some (0, p) ∈ rest := by
            rcases List.mem_cons.mp hmem with h | h
            · exact absurd h.symm hc
            · exact h
          exact ih _ p (fun x hx => hl x (by simp [hx]))
            (Or.inl ⟨hmem2, chooseBest_step_ge1 acc c hacc hcg⟩)
      · subst hacc
        refine ih _ p (fun x hx => hl x (by simp [hx])) (Or.inr ?_)
        rcases hl c (by simp) with h | h
        · subst h
          rw [cbStep.eq_def]
          dsimp only
          rw [if_neg (by omega)]
        · rcases h with h | ⟨m, q, h, hm⟩ <;> subst h
          · rfl
          · rw [cbStep.eq_def]
            dsimp only
            rw [if_neg (by omega)]

theorem chooseBest_eq_zero (l : List Cell) (p : List Bool)
    (hmem : some (0, p) ∈ l)
    (hl : ∀ c ∈ l, c = some (0, p) ∨ cellGE1 c) :
    chooseBest l = some (0, p) :=
  chooseBest_zero l none p hl (Or.inl ⟨hmem, Or.inl rfl⟩)

theorem mem_candFor (P : VitParams) (obs : Bool × Bool)
    (T : List (List Bool × Cell)) (dest : List Bool) (c : Cell) :
    c ∈ candFor P obs T dest ↔
      ∃ p b, (p, b) ∈ transitions P ∧ nextState P p b = dest ∧
        c = (tlookup T p).map
          (fun mc => (mc.1 + hamming2 (encPair P p b) obs, b :: mc.2)) := by
  simp only [candFor, List.mem_filterMap]
  constructor
  · rintro ⟨tr, htr, hf⟩
    by_cases hcond : nextState P tr.1 tr.2 = dest
    · rw [if_pos hcond] at hf
      exact ⟨tr.1, tr.2, by simpa using htr, hcond,
        (Option.some.injEq _ _ ▸ hf : _ = c).symm⟩
    · rw [if_neg hcond] at hf
      exact absurd hf (by simp)
  · rintro ⟨p, b, htr, hnext, hc⟩
    exact ⟨(p, b), htr, by rw [if_pos hnext, hc]⟩

/-- The invariant of the trellis search on a noiseless observation
stream: after consuming the encoder output of `xs`, the encoder's true
state holds metric 0 with survivor path `xs` (reversed), and every other
state is unreachable or has metric at least 1. -/
def trellisInv (P : VitParams) (xs : List Bool)
    (T : List (List Bool × Cell)) : Prop :=
  tlookup T (stState P xs) = some (0, xs.reverse) ∧
  ∀ s ∈ allStates (P.k - 1), s ≠ stState P xs → cellGE1 (tlookup T s)

theorem trellisInv_init (P : VitParams) :
    trellisInv P [] (initTrellis P) := by
  have hmem : initState P ∈ allStates (P.k - 1) :=
    (mem_allStates _ _).mpr (by simp [initState])
  constructor
  · rw [show stState P [] = initState P from rfl, tlookup_init P _ hmem,
        if_pos rfl]
    rfl
  · intro s hs hneq
    rw [show stState P [] = initState P from rfl] at hneq
    rw [tlookup_init P s hs, if_neg hneq]
    exact Or.inl rfl

theorem trellisInv_step (P : VitParams) (hg : goodParams P)
    (xs : List Bool) (b : Bool) (T : List (List Bool × Cell))
    (hinv : trellisInv P xs T) :
    trellisInv P (xs ++ [b])
      (vstep P T (encPair P (stState P xs) b)) := by
  have hk : 2 ≤ P.k := hg.1
  have hpre_mem : stState P xs ∈ allStates (P.k - 1) := stState_mem P xs
  have hdest0_mem : nextState P (stState P xs) b ∈ allStates (P.k - 1) :=
    (mem_allStates _ _).mpr (nextState_length P _ b (stState_length P xs))
  have hsnoc := stState_snoc P xs b
  have hrev : (xs ++ [b]).reverse = b :: xs.reverse := by
    simp
  constructor
  · rw [hsnoc, tlookup_vstep P T _ _ hdest0_mem, hrev]
    apply chooseBest_eq_zero
    · rw [mem_candFor]
      refine ⟨stState P xs, b, (mem_transitions P _ b).mpr hpre_mem,
        rfl, ?_⟩
      rw [hinv.1]
      simp [hamming2_self]
    · intro c hc
      rw [mem_candFor] at hc
      obtain ⟨p, b2, htr, hnext, hc⟩ := hc
      by_cases hp : p = stState P xs
      · subst hp
        have hb : b2 = b := nextState_bit_eq P hk _ b2 b hnext
        subst hb
        left
        rw [hc, hinv.1]
        simp [hamming2_self]
      · right
        rcases hinv.2 p ((mem_transitions P p b2).mp htr) hp with
          hnone | ⟨m, q, hq, hm⟩
        · rw [hc, hnone]
          exact Or.inl rfl
        · rw [hc, hq]
          exact Or.inr ⟨_, _, rfl, by omega⟩
  · intro s hs hneq
    rw [hsnoc] at hneq
    rw [tlookup_vstep P T _ _ hs]
    apply chooseBest_all_ge1
    intro c hc
    rw [mem_candFor] at hc
    obtain ⟨p, b2, htr, hnext, hc⟩ := hc
    by_cases hp : p = stState P xs
    · subst hp
      have hb : b2 ≠ b := by
        intro h
        rw [h] at hnext
        exact hneq hnext.symm
      have hpair : encPair P (stState P xs) b2
          ≠ encPair P (stState P xs) b := by
        cases b2 <;> cases b <;> first
          | exact absurd rfl hb
          | exact encPair_ne P hg _
          | exact Ne.symm (encPair_ne P hg _)

      have hbm := hamming2_pos _ _ hpair
      rw [hc, hinv.1]
      exact Or.inr ⟨_, _, rfl, by omega⟩
    · rcases hinv.2 p ((mem_transitions P p b2).mp htr) hp with
        hnone | ⟨m, q, hq, hm⟩
      · rw [hc, hnone]
        exact Or.inl rfl
      · rw [hc, hq]
        exact Or.inr ⟨_, _, rfl, by omega⟩

theorem encodeFrom_snoc (P : VitParams) :
    ∀ (xs : List Bool) (s : List Bool) (b : Bool),
      encodeFrom P s (xs ++ [b])
        = encodeFrom P s xs
          ++ [encPair P (xs.foldl (nextState P) s) b] := by
  intro xs
  induction xs with
  | nil => intro s b; rfl
  | cons x rest ih =>
      intro s b
      rw [List.cons_append,
          show encodeFrom P s (x :: (rest ++ [b]))
            = encPair P s x :: encodeFrom P (nextState P s x) (rest ++ [b])
            from rfl,
          ih (nextState P s x) b,
          show encodeFrom P s (x :: rest)
            = encPair P s x :: encodeFrom P (nextState P s x) rest
            from rfl,
          List.cons_append, List.foldl_cons]

theorem trellisInv_run (P : VitParams) (hg : goodParams P)
    (xs : List Bool) :
    trellisInv P xs
      ((encodeFrom P (initState P) xs).foldl (vstep P) (initTrellis P)) := by
  induction xs using List.reverseRecOn with
  | nil => exact trellisInv_init P
  | append_singleton ys b ih =>
      rw [encodeFrom_snoc P ys (initState P) b, List.foldl_append,
          List.foldl_cons, List.foldl_nil]
      exact trellisInv_step P hg ys b _ ih

theorem foldl_vstep_shape (P : VitParams) :
    ∀ stream : List (Bool × Bool),
      ∃ f : List Bool → Cell,
        stream.foldl (vstep P) (initTrellis P)
          = (allStates (P.k - 1)).map (fun s => (s, f s)) := by
  have H : ∀ (stream : List (Bool × Bool)) (T : List (List Bool × Cell))
      (f0 : List Bool → Cell),
      T = (allStates (P.k - 1)).map (fun s => (s, f0 s)) →
      ∃ f : List Bool → Cell,
        stream.foldl (vstep P) T
          = (allStates (P.k - 1)).map (fun s => (s, f s)) := by
    intro stream
    induction stream with
    | nil => intro T f0 h; exact ⟨f0, h⟩
    | cons obs rest ih =>
        intro T f0 h
        rw [List.foldl_cons]
        exact ih (vstep P T obs)
          (fun dest => chooseBest (candFor P obs T dest)) rfl
  exact fun stream => H stream (initTrellis P)
    (fun s => if s = initState P then some (0, []) else none) rfl

/-- On the noiseless encoder output the trellis search recovers the input
bit sequence exactly. -/
theorem vitDecoderHard_encodeFrom (P : VitParams) (hg : goodParams P)
    (xs : List Bool) :
    vitDecoderHard P (encodeFrom P (initState P) xs) = xs := by
  obtain ⟨f, hf⟩ := foldl_vstep_shape P (encodeFrom P (initState P) xs)
  have hinv := trellisInv_run P hg xs
  simp only [vitDecoderHard]
  have hmap : ((encodeFrom P (initState P) xs).foldl (vstep P)
      (initTrellis P)).map (fun e => e.2)
      = (allStates (P.k - 1)).map
        (fun s => tlookup ((encodeFrom P (initState P) xs).foldl (vstep P)
          (initTrellis P)) s) := by
    rw [hf, List.map_map]
    apply List.map_congr_left
    intro s hs
    exact (tlookup_map f _ s hs).symm
  rw [hmap]
  have hcb : chooseBest ((allStates (P.k - 1)).map
      (fun s => tlookup ((encodeFrom P (initState P) xs).foldl (vstep P)
        (initTrellis P)) s)) = some (0, xs.reverse) := by
    apply chooseBest_eq_zero
    · rw [List.mem_map]
      exact ⟨stState P xs, stState_mem P xs, hinv.1⟩
    · intro c hc
      rw [List.mem_map] at hc
      obtain ⟨s, hs, hc⟩ := hc
      by_cases hss : s = stState P xs
      · left
        rw [← hc, hss, hinv.1]
      · right
        rw [← hc]
        exact hinv.2 s hs hss
  rw [hcb]
  simp

theorem encodeFrom_length (P : VitParams) :
    ∀ (xs : List Bool) (s : List Bool),
      (encodeFrom P s xs).length = xs.length := by
  intro xs
  induction xs with
  | nil => intro s; rfl
  | cons b bs ih =>
      intro s
      rw [show encodeFrom P s (b :: bs)
            = encPair P s b :: encodeFrom P (nextState P s b) bs from rfl,
          List.length_cons, ih, List.length_cons]

theorem vitEncode_length (P : VitParams) (xs : List Bool) :
    (vitEncode P xs).length = 2 * xs.length := by
  rw [vitEncode,
      flatten_length_of_blocks 2 _ (by
        intro b hb
        rw [List.mem_map] at hb
        obtain ⟨pr, _, hpr⟩ := hb
        rw [← hpr]
        rfl),
      List.length_map, encodeFrom_length]
  ring

theorem pairUp_flatten :
    ∀ stream : List (Bool × Bool),
      pairUp ((stream.map (fun pr => [pr.1, pr.2])).flatten) = stream := by
  intro stream
  induction stream with
  | nil => rfl
  | cons pr rest ih =>
      rw [List.map_cons, List.flatten_cons,
          show ([pr.1, pr.2] : List Bool)
            ++ ((rest.map (fun pr => [pr.1, pr.2])).flatten)
            = pr.1 :: pr.2 :: ((rest.map (fun pr => [pr.1, pr.2])).flatten)
            from rfl,
          show pairUp (pr.1 :: pr.2 :: _)
            = (pr.1, pr.2) :: pairUp ((rest.map
                (fun pr => [pr.1, pr.2])).flatten) from rfl,
          ih]

/-- Hard-decision Viterbi round trip at the wrapper level, for encoded
inputs long enough to pass the decoder's length guard. -/
theorem viterbiDecode_vitEncode (P : VitParams) (hg : goodParams P)
    (xs : List Bool) (hlen : P.k ≤ 2 * xs.length) :
    viterbiDecode P false
      (PyInput.pstr (bitsToChars (vitEncode P xs)))
      = Except.ok (xs, true) := by
  have hguard : ¬((vitEncode P xs).length % 2 ≠ 0
      ∨ (vitEncode P xs).length < P.k) := by
    rw [vitEncode_length]
    omega
  show (charsToBits (bitsToChars (vitEncode P xs))).map (vitDecodeCoreHard P)
      = Except.ok (xs, true)
  rw [charsToBits_bitsToChars]
  show Except.ok (vitDecodeCoreHard P (vitEncode P xs)) = Except.ok (xs, true)
  rw [vitDecodeCoreHard, if_neg hguard,
      show vitEncode P xs
        = ((encodeFrom P (initState P) xs).map
            (fun pr => [pr.1, pr.2])).flatten from rfl,
      pairUp_flatten, vitDecoderHard_encodeFrom P hg xs]

theorem charsToBits_length :
    ∀ (s : List PyChar) (bits : List Bool),
      charsToBits s = Except.ok bits → bits.length = s.length := by
  intro s
  induction s with
  | nil =>
      intro bits h
      simp only [charsToBits] at h
      cases h
      rfl
  | cons c rest ih =>
      intro bits h
      cases c <;> simp only [charsToBits] at h
      · rcases hrest : charsToBits rest with e | tail <;> rw [hrest] at h <;>
          simp [Except.map] at h
        rw [← h, List.length_cons, List.length_cons, ih tail hrest]
      · rcases hrest : charsToBits rest with e | tail <;> rw [hrest] at h <;>
          simp [Except.map] at h
        rw [← h, List.length_cons, List.length_cons, ih tail hrest]
      · exact absurd h (by simp)

theorem charsToBits_isOk_iff (s : List PyChar) :
    (∃ bits, charsToBits s = Except.ok bits)
      ↔ s.all (fun c => c != PyChar.cBad) = true := by
  induction s with
  | nil => simp [charsToBits]
  | cons c rest ih =>
      cases c
      · simp only [charsToBits, List.all_cons]
        constructor
        · rintro ⟨bits, h⟩
          rcases hrest : charsToBits rest with e | tail <;> rw [hrest] at h <;>
            simp [Except.map] at h
          simp [ih.mp ⟨tail, hrest⟩]
        · intro h
          obtain ⟨tail, htail⟩ := ih.mpr (by simpa using h)
          exact ⟨false :: tail, by rw [htail]; rfl⟩
      · simp only [charsToBits, List.all_cons]
        constructor
        · rintro ⟨bits, h⟩
          rcases hrest : charsToBits rest with e | tail <;> rw [hrest] at h <;>
            simp [Except.map] at h
          simp [ih.mp ⟨tail, hrest⟩]
        · intro h
          obtain ⟨tail, htail⟩ := ih.mpr (by simpa using h)
          exact ⟨true :: tail, by rw [htail]; rfl⟩
      · simp [charsToBits]

theorem floatsOf_length_of_all (l : List PyElem)
    (h : l.all isFloatElem = true) : (floatsOf l).length = l.length := by
  induction l with
  | nil => rfl
  | cons e rest ih =>
      rw [List.all_cons, Bool.and_eq_true] at h
      cases e
      · simp only [floatsOf, List.filterMap_cons, List.length_cons]
        have h2 := ih h.2
        simp only [floatsOf] at h2
        omega
      · exact absurd h.1 (by simp [isFloatElem])

theorem rsRecoverChunk_length (n k : Nat) (hk : k ≤ n) (c : List GF)
    (hc : c.length = n) : (rsRecoverChunk n k c).length = k * 8 := by
  rcases hdec : coderDecode n k c with e | m
  · rw [rsRecoverChunk, hdec, symbolsToBits_length, List.length_take, hc]
    omega
  · rw [rsRecoverChunk, hdec, symbolsToBits_length,
        coderDecode_length n k hk c hc m hdec]
    ring

/-- The degraded path of `Viterbi.decode`, hard mode: an odd or too-short
observed length skips the trellis search. -/
theorem viterbiDecode_degraded_hard (P : VitParams) (s : List PyChar)
    (bits : List Bool) (hconv : charsToBits s = Except.ok bits)
    (hbad : s.length % 2 = 1 ∨ s.length < P.k) :
    viterbiDecode P false (PyInput.pstr s)
      = Except.ok (List.replicate (s.length - P.k) false, false) := by
  have hslen := charsToBits_length s bits hconv
  show (charsToBits s).map (vitDecodeCoreHard P)
      = Except.ok (List.replicate (s.length - P.k) false, false)
  rw [hconv]
  show Except.ok (vitDecodeCoreHard P bits) = _
  rw [vitDecodeCoreHard, if_pos (by omega), hslen]

/-- The degraded path of `Viterbi.decode`, soft mode. -/
theorem viterbiDecode_degraded_soft (P : VitParams) (l : List PyElem)
    (hfl : l.all isFloatElem = true)
    (hbad : l.length % 2 = 1 ∨ l.length < P.k) :
    viterbiDecode P true (PyInput.plist l)
      = Except.ok (List.replicate (l.length - P.k) false, false) := by
  have hval : decodeValidate true (PyInput.plist l) = Except.ok () := by
    rw [decodeValidate]
    simp [hfl]
  rw [viterbiDecode.eq_def, hval]
  show Except.ok (vitDecodeCoreSoft P (floatsOf l)) = _
  have hlen := floatsOf_length_of_all l hfl
  rw [vitDecodeCoreSoft, hlen, if_pos (by omega)]

/-- `ConcatenatedViterbiRS.decode` as the monadic composition of the two
layers. -/
theorem concatDecode_bind (cp : ConcatParams) (input : PyInput) :
    concatDecode cp input
      = (viterbiDecode cp.P cp.soft input).bind
          (fun vr => Except.ok ((rsDecode cp.n cp.rsk vr.1).1,
            vr.2 && (rsDecode cp.n cp.rsk vr.1).2)) := by
  have hcd : concatDecode cp input
      = (decodeValidate cp.soft input).bind (fun _ =>
          (viterbiDecode cp.P cp.soft input).map
            (fun vr => ((rsDecode cp.n cp.rsk vr.1).1,
              vr.2 && (rsDecode cp.n cp.rsk vr.1).2))) := rfl
  have hv : viterbiDecode cp.P cp.soft input
      = (decodeValidate cp.soft input).bind (fun _ =>
          match input with
          | PyInput.pstr s => (charsToBits s).map (vitDecodeCoreHard cp.P)
          | PyInput.plist l =>
              Except.ok (vitDecodeCoreSoft cp.P (floatsOf l))
          | PyInput.pother => Except.error PyErr.notAString) := rfl
  rw [hcd, hv]
  rcases hval : decodeValidate cp.soft input with e | u
  · rfl
  · cases u
    generalize (match input with
      | PyInput.pstr s => (charsToBits s).map (vitDecodeCoreHard cp.P)
      | PyInput.plist l => Except.ok (vitDecodeCoreSoft cp.P (floatsOf l))
      | PyInput.pother => Except.error PyErr.notAString :
        Except PyErr (List Bool × Bool)) = w
    rcases w with e2 | vr
    · rfl
    · rfl

/-! ## The claims -/

/-- C1: for every bitstring over 0/1 whose length is a multiple of
`k * 8` bits and every valid Reed-Solomon configuration,
`decode(encode(x))` returns exactly `(x, true)` when the encoded
bitstring is passed to decode unmodified. -/
theorem C1_reed_solomon_roundtrip (n k : Nat) (hk : 0 < k) (hkn : k < n)
    (hn : n ≤ 255) (x : List Bool) (hx : x.length % (k * 8) = 0) :
    rsDecode n k (rsEncode n k x) = (x, true) :=
  rsDecode_rsEncode_aligned n k hk hkn x hx

theorem C1_reed_solomon_roundtrip_witness :
    rsDecode 5 3 (rsEncode 5 3
      [true, true, false, true, false, false, true, false,
       true, true, false, true, false, false, true, false,
       true, true, false, true, false, false, true, false])
      = ([true, true, false, true, false, false, true, false,
          true, true, false, true, false, false, true, false,
          true, true, false, true, false, false, true, false], true) :=
  C1_reed_solomon_roundtrip 5 3 (by norm_num) (by norm_num) (by norm_num)
    _ (by decide)

/-- C2 counterexample: the empty bitstring encodes to the empty string,
whose length 0 fails the decoder's length guard, so hard-mode
`decode(encode(""))` returns `("", false)`, not `("", true)` as the
round-trip claim states for every bitstring. -/
theorem C2_viterbi_roundtrip_counterexample :
    viterbiDecode vitK2 false
        (PyInput.pstr (bitsToChars (vitEncode vitK2 [])))
      = Except.ok ([], false)
    ∧ viterbiDecode vitK2 false
        (PyInput.pstr (bitsToChars (vitEncode vitK2 [])))
      ≠ Except.ok ([], true) := by
  constructor
  · rfl
  · intro h
    have h0 : (Except.ok (([], false) : List Bool × Bool)
        : Except PyErr (List Bool × Bool)) = Except.ok ([], true) := h
    simp at h0

/-- C2 amended: for the supported constraint lengths, hard-mode
`decode(encode(x))` returns exactly `(x, true)` for every bitstring `x`
whose encoding is long enough for the decoder's length guard,
`2 * len(x) >= k`; shorter bitstrings (such as the empty one) hit the
guard and come back as (zero-fill, false). -/
theorem C2_viterbi_roundtrip_amended (P : VitParams)
    (hP : P = vitK2 ∨ P = vitK5) (xs : List Bool)
    (hlen : P.k ≤ 2 * xs.length) :
    viterbiDecode P false (PyInput.pstr (bitsToChars (vitEncode P xs)))
      = Except.ok (xs, true) := by
  have hg : goodParams P := by
    rcases hP with h | h <;> subst h <;>
      exact ⟨by decide, rfl, rfl, rfl⟩
  exact viterbiDecode_vitEncode P hg xs hlen

theorem C2_viterbi_roundtrip_amended_witness :
    viterbiDecode vitK5 false
      (PyInput.pstr (bitsToChars (vitEncode vitK5
        [true, false, true, false])))
      = Except.ok ([true, false, true, false], true) :=
  C2_viterbi_roundtrip_amended vitK5 (Or.inr rfl)
    [true, false, true, false] (by norm_num [vitK5])

/-- C3: `ReedSolomon.decode` is a total function (the per-codeword
exception is caught inside it): the recovered bitstring is the
concatenation of the per-codeword recoveries, where a failed codeword
contributes its uncorrected first `k` symbols (`rsRecoverChunk`); the
correctable flag is the and-reduction of per-codeword success; and the
output length always equals the all-corrections-succeed length. -/
theorem C3_rs_decode_structure (n k : Nat) (hk : 0 < k) (hkn : k < n)
    (bits : List Bool) (hlen : bits.length % (n * 8) = 0) :
    (rsDecode n k bits).1
      = ((bitstring_to_codewords n bits).map (rsRecoverChunk n k)).flatten
    ∧ (rsDecode n k bits).2
      = (bitstring_to_codewords n bits).all (rsChunkOk n k)
    ∧ (rsDecode n k bits).1.length
      = (bits.length / (n * 8)) * (k * 8) := by
  have hn8 : (n * 8) ≠ 0 := by omega
  refine ⟨by rw [rsDecode_eq], by rw [rsDecode_eq], ?_⟩
  rw [rsDecode_eq]
  have hcw : ∀ c ∈ bitstring_to_codewords n bits, c.length = n := by
    intro c hc
    rw [bitstring_to_codewords, List.mem_map] at hc
    obtain ⟨raw, hraw, hc⟩ := hc
    have hrawlen : raw.length = n * 8 :=
      chunkl_length_mem (n * 8) hn8 bits hlen raw hraw
    have hraw8 : raw.length % 8 = 0 := by
      rw [hrawlen]
      omega
    have := bitsToSymbols_length_aligned raw hraw8
    rw [hc] at this
    omega
  have hblocks : ∀ b ∈ (bitstring_to_codewords n bits).map
      (rsRecoverChunk n k), b.length = k * 8 := by
    intro b hb
    rw [List.mem_map] at hb
    obtain ⟨c, hc, hb⟩ := hb
    rw [← hb]
    exact rsRecoverChunk_length n k (by omega) c (hcw c hc)
  rw [flatten_length_of_blocks (k * 8) _ hblocks, List.length_map,
      bitstring_to_codewords, List.length_map,
      chunkl_count (n * 8) hn8 bits hlen]

theorem C3_rs_decode_structure_witness :
    ((rsDecode 5 3 (List.replicate 40 false)).1
      = ((bitstring_to_codewords 5 (List.replicate 40 false)).map
          (rsRecoverChunk 5 3)).flatten
    ∧ (rsDecode 5 3 (List.replicate 40 false)).2
      = (bitstring_to_codewords 5 (List.replicate 40 false)).all
          (rsChunkOk 5 3)
    ∧ (rsDecode 5 3 (List.replicate 40 false)).1.length
      = ((List.replicate 40 false : List Bool).length / (5 * 8)) * (3 * 8)) :=
  C3_rs_decode_structure 5 3 (by norm_num) (by norm_num) _ (by decide)

/-- C4: when the observed length is odd or shorter than the constraint
length, `Viterbi.decode` skips the trellis search and returns the
degraded all-zeros bitstring of length `observed_length - k` (natural
subtraction, matching Python's empty string for a non-positive repeat
count) with `correctable = false`, in both hard and soft mode. -/
theorem C4_viterbi_degraded_output (P : VitParams) :
    (∀ (s : List PyChar) (bits : List Bool),
      charsToBits s = Except.ok bits →
      (s.length % 2 = 1 ∨ s.length < P.k) →
      viterbiDecode P false (PyInput.pstr s)
        = Except.ok (List.replicate (s.length - P.k) false, false))
    ∧ (∀ l : List PyElem, l.all isFloatElem = true →
      (l.length % 2 = 1 ∨ l.length < P.k) →
      viterbiDecode P true (PyInput.plist l)
        = Except.ok (List.replicate (l.length - P.k) false, false)) := by
  exact ⟨fun s bits hconv hbad =>
      viterbiDecode_degraded_hard P s bits hconv hbad,
    fun l hfl hbad => viterbiDecode_degraded_soft P l hfl hbad⟩

theorem C4_viterbi_degraded_output_witness :
    viterbiDecode vitK2 false
      (PyInput.pstr [PyChar.c1, PyChar.c0, PyChar.c1])
      = Except.ok (List.replicate (3 - 2) false, false) :=
  (C4_viterbi_degraded_output vitK2).1 [PyChar.c1, PyChar.c0, PyChar.c1]
    [true, false, true] (by rfl) (Or.inl (by norm_num))

/-- C5: `ConcatenatedViterbiRS.decode` is the monadic composition of the
Viterbi layer and the Reed-Solomon layer: on accepted inputs the
returned bitstring is `ReedSolomon.decode` of the Viterbi-decoded
bitstring, and the returned flag is the conjunction of the two layers'
flags from that same run (on rejected inputs both raise the same
`ValueError`). -/
theorem C5_concat_decode_composition (cp : ConcatParams)
    (input : PyInput) :
    concatDecode cp input
      = (viterbiDecode cp.P cp.soft input).bind
          (fun vr => Except.ok ((rsDecode cp.n cp.rsk vr.1).1,
            vr.2 && (rsDecode cp.n cp.rsk vr.1).2)) := by
  exact concatDecode_bind cp input

/-- C6: `ConcatenatedViterbiRS.encode` computes
`ConvolutionalEncoder.encode(ReedSolomonCodec.encode(x))`, but the
`return final_encoded` at src line 262 returns only this single
bitstring, not the pair with the intermediate Reed-Solomon-only encoding
that its own docstring (src lines 253-255) promises. -/
theorem C6_concat_encode_single_value (cp : ConcatParams)
    (x : List Bool) :
    concatEncode cp x = vitEncode cp.P (rsEncode cp.n cp.rsk x) := rfl

/-- C7: Python's `(self.n - self.k)/2` at src line 33 is true division:
for n = 5, k = 2 `strength()` evaluates to the fraction 3/2, not the
integer floor 1 that both the claim and the method's own docstring
(`Returns: int`) state. -/
theorem C7_strength_true_division :
    rsStrength 5 2 = 3 / 2
    ∧ rsStrength 5 2 ≠ (((5 - 2) / 2 : Nat) : Rat) := by
  constructor
  · norm_num [rsStrength]
  · norm_num [rsStrength]

/-- C8: `ReedSolomon.encode` chunks the input symbols into groups of `k`
(zero-padding the last group on the right), emits each codeword as the
`k` data symbols followed by the `n - k` parity symbols, and the output
bitstring length is a multiple of `n * 8` bits. -/
theorem C8_rs_encode_layout (n k : Nat) (hk : 0 < k) (hkn : k < n)
    (x : List Bool) :
    rsEncode n k x
      = ((paddedChunks k (bitsToSymbols x)).map
          (fun ch => symbolsToBits (ch ++ rsParity n k ch))).flatten
    ∧ (∀ ch ∈ paddedChunks k (bitsToSymbols x),
        ch.length = k ∧ (rsParity n k ch).length = n - k)
    ∧ ∃ m, (rsEncode n k x).length = m * (n * 8) := by
  have h1 : rsEncode n k x
      = ((paddedChunks k (bitsToSymbols x)).map
          (fun ch => symbolsToBits (ch ++ rsParity n k ch))).flatten := by
    rw [rsEncode, rsEncodeLoop_padded n k (by omega), List.map_map]
    congr 1
  refine ⟨h1,
    fun ch hch => ⟨paddedChunks_length_mem k _ ch hch,
      rsParity_length n k ch⟩,
    ⟨(paddedChunks k (bitsToSymbols x)).length, ?_⟩⟩
  rw [h1, flatten_length_of_blocks (n * 8) _ (by
        intro b hb
        rw [List.mem_map] at hb
        obtain ⟨ch, hch, hb⟩ := hb
        rw [← hb, symbolsToBits_length, List.length_append,
            paddedChunks_length_mem k _ ch hch, rsParity_length]
        have : k + (n - k) = n := by omega
        rw [this]
        ring),
      List.length_map]

theorem C8_rs_encode_layout_witness :
    (rsEncode 5 3 [true, true, false, true, false, false, true, false]
      = ((paddedChunks 3 (bitsToSymbols
          [true, true, false, true, false, false, true, false])).map
          (fun ch => symbolsToBits (ch ++ rsParity 5 3 ch))).flatten)
    ∧ ∃ m, (rsEncode 5 3
        [true, true, false, true, false, false, true, false]).length
        = m * (5 * 8) :=
  ⟨(C8_rs_encode_layout 5 3 (by norm_num) (by norm_num)
      [true, true, false, true, false, false, true, false]).1,
   (C8_rs_encode_layout 5 3 (by norm_num) (by norm_num)
      [true, true, false, true, false, false, true, false]).2.2⟩

/-- C9 counterexample: in hard mode a value that *is* a string still
raises a `ValueError` when it contains a character `float()` cannot
parse (src line 203), so the "raises exactly when the input has the
wrong type" biconditional fails. -/
theorem C9_type_validation_counterexample :
    viterbiDecode vitK2 false (PyInput.pstr [PyChar.cBad])
      = Except.error PyErr.badFloatChar := rfl

/-- C9 amended: in soft mode decode raises exactly when the input is not
a list whose elements are all floats; in hard mode it raises exactly
when the input is not a string *or* is a string containing a character
that `float()` cannot parse; `ConcatenatedViterbiRS.decode` accepts
exactly the inputs its Viterbi layer accepts (its own duplicated
validation raises the same errors).  In each rejection no partial result
is produced (the `Except.error` carries no decoded data). -/
theorem C9_type_validation_amended (P : VitParams) (input : PyInput) :
    ((viterbiDecode P true input).isOk = false
      ↔ ¬ ∃ l, input = PyInput.plist l ∧ l.all isFloatElem = true)
    ∧ ((viterbiDecode P false input).isOk = false
      ↔ ¬ ∃ s, input = PyInput.pstr s
          ∧ s.all (fun c => c != PyChar.cBad) = true)
    ∧ ∀ (n rsk : Nat) (soft : Bool),
      (concatDecode ⟨P, n, rsk, soft⟩ input).isOk
        = (viterbiDecode P soft input).isOk := by
  refine ⟨?_, ?_, ?_⟩
  · rcases input with s | l | _
    · constructor
      · intro _
        rintro ⟨l, hl, _⟩
        exact absurd hl (by simp)
      · intro _
        rfl
    · by_cases hall : l.all isFloatElem = true
      · have hok : viterbiDecode P true (PyInput.plist l)
            = Except.ok (vitDecodeCoreSoft P (floatsOf l)) := by
          have hval : decodeValidate true (PyInput.plist l)
              = Except.ok () := by
            rw [decodeValidate]
            simp [hall]
          rw [viterbiDecode.eq_def, hval]
          rfl
        rw [hok]
        constructor
        · intro h
          simp [Except.isOk, Except.toBool] at h
        · intro h
          exact absurd ⟨l, rfl, hall⟩ h
      · have herr : viterbiDecode P true (PyInput.plist l)
            = Except.error PyErr.notAllFloats := by
          have hval : decodeValidate true (PyInput.plist l)
              = Except.error PyErr.notAllFloats := by
            rw [decodeValidate]
            simp [hall]
          rw [viterbiDecode.eq_def, hval]
          rfl
        rw [herr]
        constructor
        · intro _
          rintro ⟨l2, hl2, hall2⟩
          have : l2 = l := by
            injection hl2.symm
          rw [this] at hall2
          exact hall hall2
        · intro _
          rfl
    · constructor
      · intro _
        rintro ⟨l, hl, _⟩
        exact absurd hl (by simp)
      · intro _
        rfl
  · rcases input with s | l | _
    · have hred : viterbiDecode P false (PyInput.pstr s)
          = (charsToBits s).map (vitDecodeCoreHard P) := rfl
      rw [hred]
      rcases hc : charsToBits s with e | bits
      · constructor
        · intro _
          rintro ⟨s2, hs2, hall2⟩
          have hss : s2 = s := by injection hs2.symm
          rw [hss] at hall2
          obtain ⟨bits2, hbits2⟩ := (charsToBits_isOk_iff s).mpr hall2
          rw [hbits2] at hc
          exact absurd hc (by simp)
        · intro _
          rfl
      · constructor
        · intro h
          simp [Except.map, Except.isOk, Except.toBool] at h
        · intro h
          exact absurd ⟨s, rfl,
            (charsToBits_isOk_iff s).mp ⟨bits, hc⟩⟩ h
    · constructor
      · intro _
        rintro ⟨s, hs, _⟩
        exact absurd hs (by simp)
      · intro _
        rfl
    · constructor
      · intro _
        rintro ⟨s, hs, _⟩
        exact absurd hs (by simp)
      · intro _
        rfl
  · intro n rsk soft
    rw [concatDecode_bind]
    rcases viterbiDecode P soft input with e | vr
    · rfl
    · rfl

/-- C10: for a structurally invalid decoder input whose observed length
is at most the constraint length, the Python repeat count
`len(input) - k` is non-positive and the degraded output is the empty
bitstring (length `max(0, len - k) = 0`) with `correctable = false`, in
both modes. -/
theorem C10_viterbi_short_input_empty (P : VitParams) :
    (∀ (s : List PyChar) (bits : List Bool),
      charsToBits s = Except.ok bits →
      (s.length % 2 = 1 ∨ s.length < P.k) → s.length ≤ P.k →
      viterbiDecode P false (PyInput.pstr s) = Except.ok ([], false))
    ∧ (∀ l : List PyElem, l.all isFloatElem = true →
      (l.length % 2 = 1 ∨ l.length < P.k) → l.length ≤ P.k →
      viterbiDecode P true (PyInput.plist l)
        = Except.ok ([], false)) := by
  constructor
  · intro s bits hconv hbad hle
    have h := viterbiDecode_degraded_hard P s bits hconv hbad
    rwa [Nat.sub_eq_zero_of_le hle, List.replicate_zero] at h
  · intro l hfl hbad hle
    have h := viterbiDecode_degraded_soft P l hfl hbad
    rwa [Nat.sub_eq_zero_of_le hle, List.replicate_zero] at h

theorem C10_viterbi_short_input_empty_witness :
    viterbiDecode vitK5 false
      (PyInput.pstr [PyChar.c1, PyChar.c0, PyChar.c1])
      = Except.ok ([], false) :=
  (C10_viterbi_short_input_empty vitK5).1
    [PyChar.c1, PyChar.c0, PyChar.c1] [true, false, true] (by rfl)
    (Or.inr (by norm_num [vitK5])) (by norm_num [vitK5])
